import Mathlib

/-!
Multi-objective knapsack dynamic program (`src/mokp/cmodp/modp.c`)

A shallow embedding of the C sources and the properties proved about them.

Conventions of the embedding.

* A point (`int *`) is a `List Int`; the dimension is passed separately, as in
  the C code.  Coordinates are read with `getD _ 0`; every point the program
  builds has exactly `dim` coordinates, so the default is never used on them.
* An `int` is an `Int`; the sum of line 68 is reduced to the 32-bit range
  (`wrapInt`), as the program does when the sum leaves it.  The sizes, the
  counters and the capacity, which the program never makes negative and which
  stay far from the bounds, are `Nat`.
* A block of pointers (`int **`) is a `List (Option Point)`, `none` being
  `NULL`; the field `ndPoints` is itself `none` when it is `NULL`.
* Memory handed out by `malloc` is not initialised.  The contents found in a
  fresh block of `int` are a parameter (`raw : Nat → Int`, the value found at
  every offset); a slot of a freshly allocated table of containers is `none`
  until the program writes it.
* An access the C code cannot perform (index outside a block, `NULL`
  dereferenced, a container slot never written) makes the operation return
  `none`.  `free` has no other effect in the embedding.
-/

namespace MODP

/-! ## Data model (`modp.h`) -/

/-- A point: the cells of an `int *` block. -/
abbrev Point := List Int

/-- The macro `DEFAULT_VECTOR_SIZE` of `modp.h`. -/
def DEFAULT_VECTOR_SIZE : Nat := 64

/-- The struct `NDContainer` of `modp.h`. -/
structure NDContainer where
  dim : Nat
  size : Nat
  maxSize : Nat
  ndPoints : Option (List (Option Point))
  deriving DecidableEq

/-- Reading `c.ndPoints[i]` as a point: fails on a `NULL` block, outside the
block, and on a `NULL` cell. -/
def NDContainer.readPoint (c : NDContainer) (i : Nat) : Option Point :=
  match c.ndPoints with
  | none => none
  | some blk => (blk[i]?).join

/-- The assignment `c.ndPoints[i] = p`: fails on a `NULL` block and outside
the block. -/
def NDContainer.writePoint (c : NDContainer) (i : Nat) (p : Point) : Option NDContainer :=
  match c.ndPoints with
  | none => none
  | some blk =>
    if i < blk.length then some { c with ndPoints := some (blk.set i (some p)) } else none

/-! ## Points and containers (`modp.c`, lines 6-73) -/

/-- Embedding of `createNDContainer`: a block of `initSize` cells, every one
set to `NULL` by the loop of lines 17-19. -/
def createNDContainer (initSize dim : Nat) : NDContainer :=
  { dim := dim, size := 0, maxSize := initSize,
    ndPoints := some (List.replicate initSize none) }

/-- Embedding of `createPoint`: `raw` is what the fresh block holds; the loop of
line 31 runs over `0 ≤ i < 0`. -/
def createPoint (dim : Nat) (raw : Nat → Int) : Point :=
  (List.range 0).foldl (fun point i => point.set i 0) ((List.range dim).map raw)

/-- Embedding of `clonePoint`: the `dim` first cells of the source. -/
def clonePoint (srcPoint : Point) (dim : Nat) : Point :=
  (List.range dim).map (fun i => srcPoint.getD i 0)

/-- Embedding of `cloneNDContainer`. -/
def cloneNDContainer (srcContainer : NDContainer) : Option NDContainer := do
  let destContainer := createNDContainer srcContainer.maxSize srcContainer.dim
  let destContainer ← (List.range srcContainer.size).foldlM
    (fun dest i => do
      let p ← srcContainer.readPoint i
      dest.writePoint i (clonePoint p srcContainer.dim))
    destContainer
  pure { destContainer with size := srcContainer.size }

/-- Smallest value of an `int`. -/
def INT_MIN : Int := -2147483648

/-- Largest value of an `int`. -/
def INT_MAX : Int := 2147483647

/-- The value an `int` takes when it is assigned the integer `x`: `x` itself within
`INT_MIN..INT_MAX`, and `x` modulo `2^32` brought back to that range otherwise. -/
def wrapInt (x : Int) : Int := (x + 2147483648) % 4294967296 - 2147483648

/-- Embedding of `add`: `raw i` is the content of the block `createPoint` gets
for the point of index `i`.  The pointer `srcContainer.ndPoints[i]` is read
once, before the loop over the coordinates.  The sum of line 68 is an `int`. -/
def add (raw : Nat → Nat → Int) (srcContainer : NDContainer) (vector : List Int) :
    Option NDContainer := do
  let destContainer := createNDContainer srcContainer.maxSize srcContainer.dim
  let destContainer ← (List.range srcContainer.size).foldlM
    (fun dest i => do
      let s ← srcContainer.readPoint i
      let fresh := createPoint srcContainer.dim (raw i)
      let p := (List.range srcContainer.dim).foldl
        (fun p k => p.set k (wrapInt (s.getD k 0 + vector.getD k 0))) fresh
      dest.writePoint i p)
    destContainer
  pure { destContainer with size := srcContainer.size }

/-! ## Comparison of points (`modp.c`, lines 75-95) -/

/-- Embedding of `equals`: the loop returns `false` at the first differing
coordinate. -/
def equals (x y : Point) (dim : Nat) : Bool :=
  (List.range dim).all (fun i => x.getD i 0 == y.getD i 0)

/-- Embedding of `paretoDominate`. -/
def paretoDominate (x y : Point) (dim : Nat) : Bool :=
  if equals x y dim then false
  else (List.range dim).all (fun i => !decide (x.getD i 0 < y.getD i 0))

/-! ## Insertion and union (`modp.c`, lines 97-151) -/

/-- Embedding of `insertNDPoint`.  `realloc` keeps the old cells; the cells it
adds are indeterminate and are taken to be `NULL`. -/
def insertNDPoint (ndContainer : NDContainer) (point : Point) : Option NDContainer := do
  let c :=
    if ndContainer.size ≥ ndContainer.maxSize then
      let newMaxSize := ndContainer.maxSize * 2
      let old := match ndContainer.ndPoints with
        | none => []
        | some blk => blk
      let blk := old.take newMaxSize ++ List.replicate (newMaxSize - old.length) none
      let blk := (List.range' ndContainer.size (newMaxSize - ndContainer.size)).foldl
        (fun b i => b.set i none) blk
      { ndContainer with ndPoints := some blk, maxSize := newMaxSize }
    else ndContainer
  let c ← c.writePoint c.size (clonePoint point c.dim)
  pure { c with size := c.size + 1 }

/-- The inner loops of `mergeNDContainer` (lines 123-128 and 138-143): `true`
when no index of the list makes `test` hold, stopping at the first that does. -/
def scanND (Z : NDContainer) (test : Point → Bool) : List Nat → Option Bool
  | [] => some true
  | j :: js => do
    let z ← Z.readPoint j
    if test z then some false else scanND Z test js

/-- First loop of `mergeNDContainer` (lines 120-133). -/
def mergePass1 (X Y : NDContainer) (ndContainer : NDContainer) : Option NDContainer :=
  (List.range X.size).foldlM
    (fun nd i => do
      let x ← X.readPoint i
      let isND ← scanND Y (fun y => paretoDominate y x X.dim) (List.range Y.size)
      if isND then insertNDPoint nd x else pure nd)
    ndContainer

/-- Second loop of `mergeNDContainer` (lines 135-148). -/
def mergePass2 (X Y : NDContainer) (ndContainer : NDContainer) : Option NDContainer :=
  (List.range Y.size).foldlM
    (fun nd i => do
      let y ← Y.readPoint i
      let isND ← scanND X (fun x => equals x y X.dim || paretoDominate x y X.dim)
        (List.range X.size)
      if isND then insertNDPoint nd y else pure nd)
    ndContainer

/-- Embedding of `mergeNDContainer`. -/
def mergeNDContainer (X Y : NDContainer) : Option NDContainer := do
  let ndContainer := createNDContainer DEFAULT_VECTOR_SIZE X.dim
  let ndContainer ← mergePass1 X Y ndContainer
  mergePass2 X Y ndContainer

/-- Embedding of `cleanNDContainer`: the loop reads the cells below `size`; then
the block pointer is `NULL` and the size is 0. -/
def cleanNDContainer (ndContainer : NDContainer) : Option NDContainer := do
  (List.range ndContainer.size).forM
    (fun i => do
      let blk ← ndContainer.ndPoints
      let _ ← blk[i]?
      pure ())
  pure { ndContainer with ndPoints := none, size := 0 }

/-! ## The driver (`modp.c`, lines 163-216) -/

/-- A table of `capacity + 1` containers (`prev`, `curr`); a slot never written
is `none`. -/
abbrev Table := List (Option NDContainer)

/-- Reading slot `j` of a table. -/
def Table.read (t : Table) (j : Nat) : Option NDContainer := (t[j]?).join

/-- Writing slot `j` of a table. -/
def Table.write (t : Table) (j : Nat) (c : NDContainer) : Option Table :=
  if j < t.length then some (t.set j (some c)) else none

/-- The call `cleanNDContainer(&t[j])`. -/
def Table.clean (t : Table) (j : Nat) : Option Table := do
  let c ← t.read j
  let c ← cleanNDContainer c
  t.write j c

/-- What the blocks allocated for points hold when `createPoint` returns them:
`prevBase j` for `prev[j]` (line 172), `currBase` for `curr[0]` (line 182),
`shifted i j k` for point `k` of the call of `add` for item `i` at capacity `j`
(line 66). -/
structure Heap where
  prevBase : Nat → Nat → Int
  currBase : Nat → Int
  shifted : Nat → Nat → Nat → Nat → Int

/-- A heap that happens to hold zeros everywhere. -/
def Heap.zero : Heap := ⟨fun _ _ => 0, fun _ => 0, fun _ _ _ _ => 0⟩

/-- Lines 171-173 and 181-183: a container of size 1 around a point from
`createPoint`. -/
def baseCell (n : Nat) (raw : Nat → Int) : Option NDContainer := do
  let c := createNDContainer DEFAULT_VECTOR_SIZE n
  let c ← c.writePoint 0 (createPoint n raw)
  pure { c with size := 1 }

/-- Lines 165-174: the table `prev`. -/
def initPrev (heap : Heap) (capacity n : Nat) : Option Table :=
  (List.range (capacity + 1)).foldlM
    (fun t j => do
      let c ← baseCell n (heap.prevBase j)
      t.write j c)
    (List.replicate (capacity + 1) none)

/-- Lines 176-183: the table `curr`, of which only slot 0 is written. -/
def initCurr (heap : Heap) (capacity n : Nat) : Option Table := do
  let c ← baseCell n heap.currBase
  Table.write (List.replicate (capacity + 1) none) 0 c

/-- Lines 187-194: the value stored in `curr[j]` for item `i`. -/
def modpCell (heap : Heap) (values : List (List Int)) (weights : List Int)
    (prev : Table) (i j : Nat) : Option NDContainer := do
  let w ← weights[i - 1]?
  if (j : Int) < w then
    let pj ← prev.read j
    cloneNDContainer pj
  else
    let src ← prev.read ((j : Int) - w).toNat
    let v ← values[i - 1]?
    let temp ← add (heap.shifted i j) src v
    let pj ← prev.read j
    let cell ← mergeNDContainer temp pj
    let _ ← cleanNDContainer temp
    pure cell

/-- Lines 186-195: the loop over `j` for item `i`. -/
def modpRow (heap : Heap) (values : List (List Int)) (weights : List Int) (capacity : Nat)
    (prev curr : Table) (i : Nat) : Option Table :=
  (List.range' 1 capacity).foldlM
    (fun curr j => do
      let c ← modpCell heap values weights prev i j
      curr.write j c)
    curr

/-- Lines 186-201: one iteration of the loop over the items; the result is the
pair (`prev`, `curr`) after the swap and the cleaning of `curr[1..capacity]`. -/
def modpStep (heap : Heap) (values : List (List Int)) (weights : List Int) (capacity : Nat)
    (st : Table × Table) (i : Nat) : Option (Table × Table) := do
  let curr ← modpRow heap values weights capacity st.1 st.2 i
  let ptr := st.1
  let prev := curr
  let curr := ptr
  let curr ← (List.range' 1 capacity).foldlM (fun t j => t.clean j) curr
  pure (prev, curr)

/-- Lines 185-202: the loop over the items. -/
def modpLoop (heap : Heap) (values : List (List Int)) (weights : List Int) (capacity m : Nat)
    (st : Table × Table) : Option (Table × Table) :=
  (List.range' 1 m).foldlM (modpStep heap values weights capacity) st

/-- Embedding of `modp`. -/
def modp (heap : Heap) (values : List (List Int)) (weights : List Int)
    (capacity m n : Nat) : Option NDContainer := do
  let prev ← initPrev heap capacity n
  let curr ← initCurr heap capacity n
  let (prev, curr) ← modpLoop heap values weights capacity m (prev, curr)
  let _ ← (List.range (capacity + 1)).foldlM (fun t j => t.clean j) curr
  let prev ← (List.range capacity).foldlM (fun t j => t.clean j) prev
  prev.read capacity

/-! ## Specification vocabulary -/

/-- Reading the cells of the given indices, in order; fails if one read fails. -/
def NDContainer.readAll (c : NDContainer) : List Nat → Option (List Point)
  | [] => some []
  | i :: is =>
    match c.readPoint i, NDContainer.readAll c is with
    | some p, some ps => some (p :: ps)
    | _, _ => none

/-- The points a container holds: the cells below `size`, in order. -/
def NDContainer.points (c : NDContainer) : Option (List Point) :=
  c.readAll (List.range c.size)

/-- The container `c` is an archive holding the points `ps`: its cells below `size`
are `ps`, its block has `maxSize` cells, `size ≤ maxSize`, and every point has
`dim` coordinates. -/
def NDContainer.Holds (c : NDContainer) (ps : List Point) : Prop :=
  c.points = some ps ∧ c.size ≤ c.maxSize ∧
    c.ndPoints.map List.length = some c.maxSize ∧ ∀ p ∈ ps, p.length = c.dim

instance (c : NDContainer) (ps : List Point) : Decidable (c.Holds ps) := by
  unfold NDContainer.Holds; infer_instance

/-- The archive of dimension `dim` whose block holds exactly the points `ps`. -/
def NDContainer.ofPoints (dim : Nat) (ps : List Point) : NDContainer :=
  { dim := dim, size := ps.length, maxSize := ps.length, ndPoints := some (ps.map some) }

/-- No two points at different positions are equal or dominate one another. -/
def NonDominated (dim : Nat) (ps : List Point) : Prop :=
  ps.Pairwise (fun p q => p ≠ q ∧ paretoDominate p q dim = false ∧ paretoDominate q p dim = false)

/-- The point `p` shifted by `delta`, coordinate by coordinate, the sums being exact. -/
def translate (dim : Nat) (delta : List Int) (p : Point) : Point :=
  (List.range dim).map (fun k => p.getD k 0 + delta.getD k 0)

/-- The integer `x` is within the range of `int`. -/
def fitsInt (x : Int) : Prop := INT_MIN ≤ x ∧ x ≤ INT_MAX

instance (x : Int) : Decidable (fitsInt x) := by
  unfold fitsInt; infer_instance

/-- The point `add` builds from `p` and `delta`: the sums are those of `int`. -/
def shift (dim : Nat) (delta : List Int) (p : Point) : Point :=
  (List.range dim).map (fun k => wrapInt (p.getD k 0 + delta.getD k 0))

/-- The point sequence the two passes of the union produce from the point
sequences of its arguments. -/
def mergePoints (dim : Nat) (as bs : List Point) : List Point :=
  as.filter (fun a => !bs.any (fun b => paretoDominate b a dim)) ++
    bs.filter (fun b => !as.any (fun a => equals a b dim || paretoDominate a b dim))

/-- The base point of generation `i` at capacity `j`: the point `createPoint` returned
for `prev[j]`, except in slot 0 of the odd generations, which is the slot `curr[0]`
of line 181. -/
def basePoint (heap : Heap) (n i j : Nat) : Point :=
  if j = 0 ∧ i % 2 = 1 then createPoint n heap.currBase else createPoint n (heap.prevBase j)

/-- The point sequence of cell `DP[i][j]` of the full table, generation by generation, as
the program computes it: the shifted points are those `add` builds. -/
def dpTable (heap : Heap) (values : List (List Int)) (weights : List Int) (n : Nat) :
    Nat → Nat → List Point
  | 0, j => [basePoint heap n 0 j]
  | i + 1, 0 => [basePoint heap n (i + 1) 0]
  | i + 1, j + 1 =>
    match weights[i]?, values[i]? with
    | some w, some v =>
      if ((j + 1 : Nat) : Int) < w then dpTable heap values weights n i (j + 1)
      else mergePoints n
        ((dpTable heap values weights n i (((j + 1 : Nat) : Int) - w).toNat).map (shift n v))
        (dpTable heap values weights n i (j + 1))
    | _, _ => []

/-- The same table with exact sums. -/
def dpExact (heap : Heap) (values : List (List Int)) (weights : List Int) (n : Nat) :
    Nat → Nat → List Point
  | 0, j => [basePoint heap n 0 j]
  | i + 1, 0 => [basePoint heap n (i + 1) 0]
  | i + 1, j + 1 =>
    match weights[i]?, values[i]? with
    | some w, some v =>
      if ((j + 1 : Nat) : Int) < w then dpExact heap values weights n i (j + 1)
      else mergePoints n
        ((dpExact heap values weights n i (((j + 1 : Nat) : Int) - w).toNat).map (translate n v))
        (dpExact heap values weights n i (j + 1))
    | _, _ => []

/-- Integer arithmetic is exact on the run: whenever item `i` fits in capacity `j`, every
sum `p[k] + values[i][k]` that `add` forms from a point `p` of `prev[j - weights[i]]`
is within the range of `int`. -/
def SumsExact (heap : Heap) (values : List (List Int)) (weights : List Int)
    (capacity m n : Nat) : Prop :=
  ∀ i < m, ∀ j ≤ capacity, ¬ ((j : Int) < weights.getD i 0) →
    ∀ p ∈ dpTable heap values weights n i ((j : Int) - weights.getD i 0).toNat, ∀ k < n,
      fitsInt (p.getD k 0 + (values.getD i []).getD k 0)

instance (heap : Heap) (values : List (List Int)) (weights : List Int) (capacity m n : Nat) :
    Decidable (SumsExact heap values weights capacity m n) := by
  unfold SumsExact; infer_instance

/-- Every slot `j ≤ capacity` of the table is an archive of dimension `n` holding the
points `pts j`. -/
def TableHolds (t : Table) (capacity n : Nat) (pts : Nat → List Point) : Prop :=
  t.length = capacity + 1 ∧
    ∀ j ≤ capacity, ∃ c, t.read j = some c ∧ c.Holds (pts j) ∧ c.dim = n

/-- State of the driver once `i` items are processed: `prev` holds generation `i`;
slot 0 of `curr` holds the base archive of generation `i + 1`; and, from the first swap
on, the other slots of `curr` are cleaned containers. -/
def DriverInv (heap : Heap) (values : List (List Int)) (weights : List Int)
    (capacity n i : Nat) (st : Table × Table) : Prop :=
  TableHolds st.1 capacity n (dpTable heap values weights n i) ∧
  st.2.length = capacity + 1 ∧
  (∃ c, st.2.read 0 = some c ∧ c.Holds (dpTable heap values weights n (i + 1) 0) ∧ c.dim = n) ∧
  (1 ≤ i → ∀ j, 1 ≤ j → j ≤ capacity → ∃ c, st.2.read j = some c ∧ c.size = 0)

/-- The point `p` is at least as good as `x` in each of the `dim` objectives. -/
def WeakDom (dim : Nat) (p x : Point) : Prop := ∀ k < dim, x.getD k 0 ≤ p.getD k 0

instance (dim : Nat) (p x : Point) : Decidable (WeakDom dim p x) := by
  unfold WeakDom; infer_instance

/-- Sum of the `dim` coordinates of a point. -/
def coordSum (dim : Nat) (p : Point) : Int := ∑ k in Finset.range dim, p.getD k 0

/-- The blocks `createPoint` receives for the base-case points (lines 172 and 182) hold
zeros in their `n` cells. -/
def Heap.BaseZeroed (heap : Heap) (capacity n : Nat) : Prop :=
  (∀ j ≤ capacity, ∀ k < n, heap.prevBase j k = 0) ∧ ∀ k < n, heap.currBase k = 0

/-- The archive holding the zero vector of dimension `n` alone: the base case of the
recurrence of the specification. -/
def zeroArchive (n : Nat) : NDContainer := NDContainer.ofPoints n [List.replicate n 0]

/-- The full table of the specification (its section 4.3), every generation kept:
`DP[0][j]` and `DP[i][0]` are the zero archive; for `i, j ≥ 1`, `DP[i][j]` is a clone of
`DP[i-1][j]` when `j < weight[i-1]`, and otherwise the union of `DP[i-1][j - weight[i-1]]`
shifted by `value[i-1]` with `DP[i-1][j]`. -/
def specTable (values : List (List Int)) (weights : List Int) (n : Nat) :
    Nat → Nat → Option NDContainer
  | 0, _ => some (zeroArchive n)
  | _ + 1, 0 => some (zeroArchive n)
  | i + 1, j + 1 =>
    match weights[i]?, values[i]? with
    | some w, some v =>
      if ((j + 1 : Nat) : Int) < w then
        (specTable values weights n i (j + 1)).bind cloneNDContainer
      else
        (specTable values weights n i (((j + 1 : Nat) : Int) - w).toNat).bind fun src =>
          (add (fun _ _ => 0) src v).bind fun shifted =>
            (specTable values weights n i (j + 1)).bind fun kept =>
              mergeNDContainer shifted kept
    | _, _ => none

/-- Total weight of the items whose indices are listed in `S`. -/
def subsetWeight (weights : List Int) (S : List Nat) : Int :=
  (S.map (fun i => weights.getD i 0)).sum

/-- Coordinate-wise sum, in dimension `n`, of the value vectors of the items listed in `S`. -/
def subsetValue (values : List (List Int)) (n : Nat) (S : List Nat) : Point :=
  (List.range n).map (fun k => (S.map (fun i => (values.getD i []).getD k 0)).sum)

/-- The list `S` is a set of items among the first `m` (indices increasing) whose total
weight fits in `capacity`. -/
def Feasible (weights : List Int) (capacity m : Nat) (S : List Nat) : Prop :=
  S.Sublist (List.range m) ∧ subsetWeight weights S ≤ capacity

instance (weights : List Int) (capacity m : Nat) (S : List Nat) :
    Decidable (Feasible weights capacity m S) := by
  unfold Feasible; infer_instance

end MODP

namespace MODP

/-! ## Comparison of points -/

theorem equals_iff (x y : Point) (dim : Nat) :
    equals x y dim = true ↔ ∀ k < dim, x.getD k 0 = y.getD k 0 := by
  simp [equals, List.all_eq_true]

theorem equals_iff_eq (x y : Point) (dim : Nat) (hx : x.length = dim) (hy : y.length = dim) :
    equals x y dim = true ↔ x = y := by
  rw [equals_iff]
  constructor
  · intro h
    apply List.ext_getElem (by omega)
    intro k h1 h2
    have := h k (by omega)
    rwa [List.getD_eq_getElem _ _ h1, List.getD_eq_getElem _ _ h2] at this
  · rintro rfl k _
    rfl

theorem paretoDominate_iff (x y : Point) (dim : Nat) :
    paretoDominate x y dim = true ↔
      equals x y dim = false ∧ ∀ k < dim, y.getD k 0 ≤ x.getD k 0 := by
  unfold paretoDominate
  cases h : equals x y dim <;> simp [List.all_eq_true]

/-- C10: for points `x`, `y` with `dim` coordinates, `paretoDominate x y dim` is true
exactly when `x ≠ y` and `x[k] ≥ y[k]` for every `k < dim`, and exactly when
`x[k] ≥ y[k]` for every `k < dim` and `x[k] > y[k]` for some `k < dim`. -/
theorem paretoDominate_spec (dim : Nat) (x y : Point)
    (hx : x.length = dim) (hy : y.length = dim) :
    (paretoDominate x y dim = true ↔ (x ≠ y ∧ ∀ k < dim, x.getD k 0 ≥ y.getD k 0)) ∧
    (paretoDominate x y dim = true ↔
      ((∀ k < dim, x.getD k 0 ≥ y.getD k 0) ∧ ∃ k < dim, x.getD k 0 > y.getD k 0)) := by
  have heq := equals_iff_eq x y dim hx hy
  have hne : equals x y dim = false ↔ x ≠ y := by
    rw [Ne, ← heq]; cases equals x y dim <;> simp
  refine ⟨?_, ?_⟩
  · rw [paretoDominate_iff, hne]
  · rw [paretoDominate_iff]
    constructor
    · rintro ⟨h1, h2⟩
      refine ⟨h2, ?_⟩
      by_contra hcon
      push_neg at hcon
      have : equals x y dim = true := by
        rw [equals_iff]
        intro k hk
        exact le_antisymm (hcon k hk) (h2 k hk)
      rw [this] at h1
      exact Bool.noConfusion h1
    · rintro ⟨h2, k, hk, hlt⟩
      refine ⟨?_, h2⟩
      cases h : equals x y dim
      · rfl
      · rw [equals_iff] at h
        have := h k hk
        omega

theorem paretoDominate_spec_witness :
    (paretoDominate [3, 1] [2, 1] 2 = true ↔
      (([3, 1] : Point) ≠ [2, 1] ∧ ∀ k < 2, ([3, 1] : Point).getD k 0 ≥ ([2, 1] : Point).getD k 0)) ∧
    (paretoDominate [3, 1] [2, 1] 2 = true ↔
      ((∀ k < 2, ([3, 1] : Point).getD k 0 ≥ ([2, 1] : Point).getD k 0) ∧
        ∃ k < 2, ([3, 1] : Point).getD k 0 > ([2, 1] : Point).getD k 0)) :=
  paretoDominate_spec 2 [3, 1] [2, 1] rfl rfl

/-! ## Containers as lists of points -/

theorem readAll_eq_some (c : NDContainer) (l : List Nat) (ps : List Point) :
    c.readAll l = some ps ↔ l.map c.readPoint = ps.map some := by
  induction l generalizing ps with
  | nil => cases ps <;> simp [NDContainer.readAll]
  | cons i is ih =>
    cases ps with
    | nil =>
      simp only [NDContainer.readAll, List.map_cons, List.map_nil]
      cases c.readPoint i <;> cases NDContainer.readAll c is <;> simp
    | cons p ps =>
      simp only [NDContainer.readAll, List.map_cons, List.cons.injEq]
      rw [← ih ps]
      cases c.readPoint i <;> cases NDContainer.readAll c is <;> simp

theorem holds_iff (c : NDContainer) (ps : List Point) :
    c.Holds ps ↔
      (∃ blk, c.ndPoints = some blk ∧ blk.length = c.maxSize) ∧ c.size ≤ c.maxSize ∧
      ps.length = c.size ∧ (∀ i < c.size, c.readPoint i = ps[i]?) ∧
      ∀ p ∈ ps, p.length = c.dim := by
  unfold NDContainer.Holds NDContainer.points
  rw [readAll_eq_some]
  have hblk : c.ndPoints.map List.length = some c.maxSize ↔
      ∃ blk, c.ndPoints = some blk ∧ blk.length = c.maxSize := by
    cases c.ndPoints <;> simp
  rw [hblk]
  constructor
  · rintro ⟨h1, h2, h3, h4⟩
    have hlen : ps.length = c.size := by
      have := congrArg List.length h1
      simpa using this.symm
    refine ⟨h3, h2, hlen, ?_, h4⟩
    intro i hi
    have := congrArg (fun l => l[i]?) h1
    simp only [List.getElem?_map] at this
    rw [List.getElem?_range hi] at this
    have hi2 : i < ps.length := by omega
    rw [List.getElem?_eq_getElem hi2] at this ⊢
    simpa using this
  · rintro ⟨h3, h2, hlen, h1, h4⟩
    refine ⟨?_, h2, h3, h4⟩
    apply List.ext_getElem?
    intro i
    simp only [List.getElem?_map]
    by_cases hi : i < c.size
    · rw [List.getElem?_range hi, Option.map_some', h1 i hi]
      have hi2 : i < ps.length := by omega
      rw [List.getElem?_eq_getElem hi2]
      rfl
    · have h5 : (List.range c.size)[i]? = none := by
        apply List.getElem?_eq_none; simp; omega
      have h6 : ps[i]? = none := by
        apply List.getElem?_eq_none; omega
      rw [h5, h6]; rfl

theorem clonePoint_eq (p : Point) (dim : Nat) (h : p.length = dim) : clonePoint p dim = p := by
  unfold clonePoint
  apply List.ext_getElem (by simp [h])
  intro k h1 h2
  simp [List.getElem?_eq_getElem h2]

theorem clonePoint_length (p : Point) (dim : Nat) : (clonePoint p dim).length = dim := by
  simp [clonePoint]

theorem foldl_set_none_length (l : List Nat) (blk : List (Option Point)) :
    (l.foldl (fun b i => b.set i none) blk).length = blk.length := by
  induction l generalizing blk with
  | nil => rfl
  | cons i l ih => simp [ih]

theorem foldl_set_none_getElem? (l : List Nat) (blk : List (Option Point)) (k : Nat)
    (hk : k ∉ l) : (l.foldl (fun b i => b.set i none) blk)[k]? = blk[k]? := by
  induction l generalizing blk with
  | nil => rfl
  | cons i l ih =>
    simp only [List.mem_cons, not_or] at hk
    simp only [List.foldl_cons]
    rw [ih _ hk.2, List.getElem?_set]
    simp [Ne.symm hk.1]

theorem readPoint_of_block (c : NDContainer) (blk : List (Option Point))
    (h : c.ndPoints = some blk) (i : Nat) : c.readPoint i = (blk[i]?).join := by
  simp [NDContainer.readPoint, h]

theorem insertNDPoint_holds (c : NDContainer) (ps : List Point) (p : Point)
    (h : c.Holds ps) (hpos : 0 < c.maxSize) (hp : p.length = c.dim) :
    ∃ c', insertNDPoint c p = some c' ∧ c'.Holds (ps ++ [p]) ∧ c'.dim = c.dim ∧
      0 < c'.maxSize := by
  rw [holds_iff] at h
  obtain ⟨⟨blk, hblk, hlen⟩, hle, hps, hread, hdim⟩ := h
  have hclone : clonePoint p c.dim = p := clonePoint_eq p c.dim hp
  have hread' : ∀ i < c.size, (blk[i]?).join = ps[i]? := by
    intro i hi
    rw [← hread i hi, readPoint_of_block c blk hblk]
  by_cases hfull : c.size ≥ c.maxSize
  · have hsz : c.size = c.maxSize := by omega
    let blk2 := (List.range' c.size (c.maxSize * 2 - c.size)).foldl
        (fun b i => b.set i none)
        (blk.take (c.maxSize * 2) ++ List.replicate (c.maxSize * 2 - blk.length) none)
    have hlen2 : blk2.length = c.maxSize * 2 := by
      simp only [blk2, foldl_set_none_length, List.length_append, List.length_take,
        List.length_replicate]
      omega
    have hget2 : ∀ k < c.size, blk2[k]? = blk[k]? := by
      intro k hk
      simp only [blk2]
      rw [foldl_set_none_getElem?]
      · rw [List.getElem?_append_left (by simp; omega), List.getElem?_take_of_lt (by omega)]
      · simp [List.mem_range']; omega
    refine ⟨{ c with ndPoints := some (blk2.set c.size (some p)), maxSize := c.maxSize * 2,
                     size := c.size + 1 }, ?_, ?_, rfl, by simp; omega⟩
    · simp only [insertNDPoint, hfull, if_true, hblk, NDContainer.writePoint, hclone]
      have : c.size < blk2.length := by omega
      simp only [blk2] at this
      simp [this, blk2]
    · rw [holds_iff]
      refine ⟨⟨_, rfl, by simp [hlen2]⟩, by simp; omega, by simp [hps], ?_, ?_⟩
      · intro i hi
        simp only at hi
        rw [readPoint_of_block _ _ rfl, List.getElem?_set]
        by_cases hic : c.size = i
        · subst hic
          have : c.size < blk2.length := by omega
          simp [this, hps]
        · simp only [hic, if_false]
          have hi' : i < c.size := by omega
          rw [hget2 i hi', hread' i hi', List.getElem?_append_left (by omega)]
      · intro q hq
        rcases List.mem_append.1 hq with hq | hq
        · exact hdim q hq
        · simp at hq; subst hq; exact hp
  · have hlt : c.size < c.maxSize := by omega
    refine ⟨{ c with ndPoints := some (blk.set c.size (some p)), size := c.size + 1 },
      ?_, ?_, rfl, hpos⟩
    · simp only [insertNDPoint, hfull, if_false, hblk, NDContainer.writePoint, hclone]
      simp [hlen, hlt]
    · rw [holds_iff]
      refine ⟨⟨_, rfl, by simp [hlen]⟩, by simp; omega, by simp [hps], ?_, ?_⟩
      · intro i hi
        simp only at hi
        rw [readPoint_of_block _ _ rfl, List.getElem?_set]
        by_cases hic : c.size = i
        · subst hic
          simp [hlen, hlt, hps]
        · simp only [hic, if_false]
          have hi' : i < c.size := by omega
          rw [hread' i hi', List.getElem?_append_left (by omega)]
      · intro q hq
        rcases List.mem_append.1 hq with hq | hq
        · exact hdim q hq
        · simp at hq; subst hq; exact hp
/-! ## Loops, copies and translations -/

/-- Invariant rule for the counted loops of the program. -/
theorem foldlM_range'_inv {σ : Type} (f : σ → Nat → Option σ) (P : Nat → σ → Prop)
    (s k : Nat) (init : σ) (h0 : P 0 init)
    (hstep : ∀ t st, t < k → P t st → ∃ st', f st (s + t) = some st' ∧ P (t + 1) st') :
    ∃ st', (List.range' s k).foldlM f init = some st' ∧ P k st' := by
  induction k with
  | zero => exact ⟨init, rfl, h0⟩
  | succ k ih =>
    obtain ⟨st, h1, h2⟩ := ih (fun t st ht hP => hstep t st (by omega) hP)
    obtain ⟨st', h3, h4⟩ := hstep k st (by omega) h2
    refine ⟨st', ?_, h4⟩
    rw [List.range'_concat, List.foldlM_append, h1]
    simp [h3]

theorem foldlM_range_inv {σ : Type} (f : σ → Nat → Option σ) (P : Nat → σ → Prop)
    (k : Nat) (init : σ) (h0 : P 0 init)
    (hstep : ∀ t st, t < k → P t st → ∃ st', f st t = some st' ∧ P (t + 1) st') :
    ∃ st', (List.range k).foldlM f init = some st' ∧ P k st' := by
  rw [List.range_eq_range']
  exact foldlM_range'_inv f P 0 k init h0 (fun t st ht hP => by simpa using hstep t st ht hP)

theorem createPoint_eq (dim : Nat) (raw : Nat → Int) :
    createPoint dim raw = (List.range dim).map raw := rfl

theorem createPoint_length (dim : Nat) (raw : Nat → Int) : (createPoint dim raw).length = dim := by
  simp [createPoint_eq]

theorem foldl_set_eq (f : Nat → Int) (l : Point) (d : Nat) (hd : d ≤ l.length) :
    (List.range d).foldl (fun p k => p.set k (f k)) l = (List.range d).map f ++ l.drop d := by
  induction d with
  | zero => simp
  | succ d ih =>
    rw [List.range_succ, List.foldl_append, ih (by omega)]
    simp only [List.foldl_cons, List.foldl_nil, List.map_append, List.map_cons, List.map_nil]
    rw [List.set_append]
    simp only [List.length_map, List.length_range, lt_self_iff_false, if_false, Nat.sub_self]
    rw [List.append_assoc]
    congr 1
    rw [List.drop_eq_getElem_cons (by omega : d < l.length)]
    rfl

theorem add_point_eq (dim : Nat) (raw : Nat → Int) (s vector : List Int) :
    (List.range dim).foldl (fun p k => p.set k (wrapInt (s.getD k 0 + vector.getD k 0)))
      (createPoint dim raw) = shift dim vector s := by
  rw [foldl_set_eq _ _ _ (by rw [createPoint_length])]
  rw [List.drop_of_length_le (by rw [createPoint_length])]
  simp [shift]

theorem translate_length (dim : Nat) (delta : List Int) (p : Point) :
    (translate dim delta p).length = dim := by
  simp [translate]

theorem shift_length (dim : Nat) (delta : List Int) (p : Point) :
    (shift dim delta p).length = dim := by
  simp [shift]

theorem wrapInt_of_fits (x : Int) (h : fitsInt x) : wrapInt x = x := by
  unfold fitsInt INT_MIN INT_MAX at h
  unfold wrapInt
  omega

theorem wrapInt_fits (x : Int) : fitsInt (wrapInt x) := by
  unfold fitsInt INT_MIN INT_MAX wrapInt
  omega

theorem shift_eq_translate (dim : Nat) (delta : List Int) (p : Point)
    (h : ∀ k < dim, fitsInt (p.getD k 0 + delta.getD k 0)) :
    shift dim delta p = translate dim delta p := by
  unfold shift translate
  apply List.map_congr_left
  intro k hk
  exact wrapInt_of_fits _ (h k (List.mem_range.1 hk))

/-- The loops of `cloneNDContainer` and `add`: a fresh block filled with the images of the
points of the source. -/
theorem fill_holds (src : NDContainer) (g : Point → Point) (ps : List Point)
    (h : src.Holds ps) (hg : ∀ p, (g p).length = src.dim) :
    ∃ dest, (List.range src.size).foldlM
        (fun dest i => do
          let p ← src.readPoint i
          dest.writePoint i (g p))
        (createNDContainer src.maxSize src.dim) = some dest ∧
      ({ dest with size := src.size } : NDContainer).Holds (ps.map g) ∧
      dest.dim = src.dim ∧ dest.maxSize = src.maxSize := by
  rw [holds_iff] at h
  obtain ⟨⟨sblk, hsblk, hslen⟩, hle, hps, hread, hdim⟩ := h
  obtain ⟨dest, h1, h2⟩ := foldlM_range_inv
    (fun dest i => do
          let p ← src.readPoint i
          dest.writePoint i (g p))
    (fun t dest => dest.dim = src.dim ∧ dest.maxSize = src.maxSize ∧
      ∃ blk, dest.ndPoints = some blk ∧ blk.length = src.maxSize ∧
        ∀ i < t, blk[i]? = some ((ps[i]?).map g))
    src.size (createNDContainer src.maxSize src.dim)
    ⟨rfl, rfl, _, rfl, by simp, by intro i hi; omega⟩
    (by
      rintro t st ht ⟨hd, hm, blk, hb, hbl, hbi⟩
      have hr := hread t ht
      have ht2 : t < ps.length := by omega
      rw [List.getElem?_eq_getElem ht2] at hr
      refine ⟨{ st with ndPoints := some (blk.set t (some (g ps[t]))) }, ?_, hd, hm, _, rfl,
        by simp [hbl], ?_⟩
      · simp only [hr, Option.bind_eq_bind, Option.some_bind, NDContainer.writePoint, hb]
        rw [if_pos (by omega)]
      · intro i hi
        rw [List.getElem?_set]
        by_cases hit : t = i
        · subst hit
          simp [hbl, List.getElem?_eq_getElem ht2]
          omega
        · simp only [hit, if_false]
          exact hbi i (by omega))
  obtain ⟨hd, hm, blk, hb, hbl, hbi⟩ := h2
  refine ⟨dest, h1, ?_, hd, hm⟩
  rw [holds_iff]
  refine ⟨⟨blk, hb, by simp [hbl, hm]⟩, by simp [hm, hle], by simp [hps], ?_, ?_⟩
  · intro i hi
    simp only at hi
    rw [readPoint_of_block { dest with size := src.size } blk hb, hbi i hi]
    simp
  · intro q hq
    obtain ⟨p, _, rfl⟩ := List.mem_map.1 hq
    simp [hd, hg]

theorem cloneNDContainer_holds (src : NDContainer) (ps : List Point) (h : src.Holds ps) :
    ∃ R, cloneNDContainer src = some R ∧ R.Holds ps ∧ R.dim = src.dim ∧
      R.maxSize = src.maxSize := by
  obtain ⟨dest, h1, h2, h3, h4⟩ := fill_holds src (fun p => clonePoint p src.dim) ps h
    (fun p => clonePoint_length p _)
  refine ⟨{ dest with size := src.size }, ?_, ?_, h3, h4⟩
  · simp only [cloneNDContainer, Option.bind_eq_bind, Option.pure_def]
    simp only [Option.bind_eq_bind] at h1
    rw [h1]; rfl
  · have : ps.map (fun p => clonePoint p src.dim) = ps := by
      conv_rhs => rw [← List.map_id ps]
      apply List.map_congr_left
      intro p hp
      exact clonePoint_eq p _ (h.2.2.2 p hp)
    rwa [this] at h2

theorem add_holds (raw : Nat → Nat → Int) (src : NDContainer) (vector : List Int)
    (ps : List Point) (h : src.Holds ps) :
    ∃ R, add raw src vector = some R ∧ R.Holds (ps.map (shift src.dim vector)) ∧
      R.dim = src.dim ∧ R.maxSize = src.maxSize := by
  obtain ⟨dest, h1, h2, h3, h4⟩ := fill_holds src (shift src.dim vector) ps h
    (fun p => shift_length _ _ p)
  refine ⟨{ dest with size := src.size }, ?_, h2, h3, h4⟩
  simp only [add, Option.bind_eq_bind, Option.pure_def, add_point_eq]
  simp only [Option.bind_eq_bind] at h1
  rw [h1]; rfl

theorem baseCell_holds (n : Nat) (raw : Nat → Int) :
    ∃ c, baseCell n raw = some c ∧ c.Holds [createPoint n raw] ∧ c.dim = n ∧
      c.maxSize = DEFAULT_VECTOR_SIZE := by
  refine ⟨{ dim := n, size := 1, maxSize := DEFAULT_VECTOR_SIZE,
            ndPoints := some ((List.replicate DEFAULT_VECTOR_SIZE none).set 0
              (some (createPoint n raw))) }, ?_, ?_, rfl, rfl⟩
  · simp [baseCell, createNDContainer, NDContainer.writePoint, DEFAULT_VECTOR_SIZE]
  · simp [NDContainer.Holds, NDContainer.points, NDContainer.readAll, NDContainer.readPoint,
      DEFAULT_VECTOR_SIZE, createPoint_length, List.range_succ]

theorem forM_range_some (k : Nat) (f : Nat → Option PUnit)
    (h : ∀ i < k, f i = some ⟨⟩) : (List.range k).forM f = some ⟨⟩ := by
  have : ∀ l : List Nat, (∀ i ∈ l, f i = some ⟨⟩) → l.forM f = some ⟨⟩ := by
    intro l
    induction l with
    | nil => intro _; rfl
    | cons a l ih =>
      intro hl
      simp only [List.forM, hl a (List.mem_cons_self _ _)]
      exact ih (fun i hi => hl i (List.mem_cons_of_mem _ hi))
  exact this _ (fun i hi => h i (List.mem_range.1 hi))

theorem cleanNDContainer_holds (c : NDContainer) (ps : List Point) (h : c.Holds ps) :
    cleanNDContainer c = some { c with ndPoints := none, size := 0 } := by
  rw [holds_iff] at h
  obtain ⟨⟨blk, hblk, hlen⟩, hle, -, -, -⟩ := h
  unfold cleanNDContainer
  rw [forM_range_some]
  · rfl
  · intro i hi
    have : i < blk.length := by omega
    simp [hblk, List.getElem?_eq_getElem this]

theorem cleanNDContainer_cleaned (c : NDContainer) (h : c.size = 0) :
    cleanNDContainer c = some { c with ndPoints := none, size := 0 } := by
  unfold cleanNDContainer
  rw [h]
  rfl

/-! ## The union, on lists of points -/

theorem holds_reads (c : NDContainer) (ps : List Point) (h : c.Holds ps) :
    (List.range c.size).map c.readPoint = ps.map some :=
  (readAll_eq_some c _ ps).1 h.1

theorem createNDContainer_holds (initSize dim : Nat) :
    (createNDContainer initSize dim).Holds [] := by
  simp [NDContainer.Holds, NDContainer.points, createNDContainer, NDContainer.readAll]

theorem scanND_eq (Z : NDContainer) (test : Point → Bool) (l : List Nat) (zs : List Point)
    (hl : l.map Z.readPoint = zs.map some) :
    scanND Z test l = some (!zs.any test) := by
  induction l generalizing zs with
  | nil =>
    cases zs with
    | nil => rfl
    | cons z zs => simp at hl
  | cons j js ih =>
    cases zs with
    | nil => simp at hl
    | cons z zs =>
      simp only [List.map_cons, List.cons.injEq] at hl
      simp only [scanND, hl.1, Option.bind_eq_bind, Option.some_bind, List.any_cons]
      cases hz : test z
      · simpa using ih zs hl.2
      · simp

theorem mergeFold_holds (X : NDContainer) (dim : Nat) (isND : Point → Option Bool)
    (keep : Point → Bool) (l : List Nat) (xs : List Point)
    (hl : l.map X.readPoint = xs.map some) (hx : ∀ x ∈ xs, x.length = dim)
    (hk : ∀ x ∈ xs, isND x = some (keep x))
    (nd : NDContainer) (acc : List Point) (hnd : nd.Holds acc) (hpos : 0 < nd.maxSize)
    (hd : nd.dim = dim) :
    ∃ nd', l.foldlM (fun nd i => do
        let x ← X.readPoint i
        let b ← isND x
        if b then insertNDPoint nd x else pure nd) nd = some nd' ∧
      nd'.Holds (acc ++ xs.filter keep) ∧ nd'.dim = dim ∧ 0 < nd'.maxSize := by
  induction l generalizing xs nd acc with
  | nil =>
    cases xs with
    | nil => exact ⟨nd, rfl, by simpa using hnd, hd, hpos⟩
    | cons z zs => simp at hl
  | cons j js ih =>
    cases xs with
    | nil => simp at hl
    | cons x xs =>
      simp only [List.map_cons, List.cons.injEq] at hl
      have hkx := hk x (List.mem_cons_self _ _)
      have hxl := hx x (List.mem_cons_self _ _)
      simp only [List.foldlM_cons, hl.1, Option.bind_eq_bind, Option.some_bind, hkx]
      cases hkeep : keep x
      · simp only [List.filter_cons, hkeep]
        exact ih xs hl.2 (fun y hy => hx y (List.mem_cons_of_mem _ hy))
          (fun y hy => hk y (List.mem_cons_of_mem _ hy)) nd acc hnd hpos hd
      · obtain ⟨nd1, h1, h2, h3, h4⟩ := insertNDPoint_holds nd acc x hnd hpos (by rw [hd]; exact hxl)
        simp only [if_true, h1, Option.some_bind, List.filter_cons, hkeep]
        have := ih xs hl.2 (fun y hy => hx y (List.mem_cons_of_mem _ hy))
          (fun y hy => hk y (List.mem_cons_of_mem _ hy)) nd1 (acc ++ [x]) h2 h4 (h3.trans hd)
        simpa using this

theorem mergePass1_holds (X Y : NDContainer) (xs ys : List Point)
    (hX : X.Holds xs) (hY : Y.Holds ys)
    (nd : NDContainer) (acc : List Point) (hnd : nd.Holds acc) (hpos : 0 < nd.maxSize)
    (hd : nd.dim = X.dim) :
    ∃ nd', mergePass1 X Y nd = some nd' ∧
      nd'.Holds (acc ++ xs.filter (fun a => !ys.any (fun b => paretoDominate b a X.dim))) ∧
      nd'.dim = X.dim ∧ 0 < nd'.maxSize :=
  mergeFold_holds X X.dim
    (fun x => scanND Y (fun y => paretoDominate y x X.dim) (List.range Y.size))
    (fun a => !ys.any (fun b => paretoDominate b a X.dim)) (List.range X.size) xs
    (holds_reads X xs hX) hX.2.2.2 (fun _ _ => scanND_eq Y _ _ ys (holds_reads Y ys hY))
    nd acc hnd hpos hd

theorem mergePass2_holds (X Y : NDContainer) (xs ys : List Point)
    (hX : X.Holds xs) (hY : Y.Holds ys) (hdim : Y.dim = X.dim)
    (nd : NDContainer) (acc : List Point) (hnd : nd.Holds acc) (hpos : 0 < nd.maxSize)
    (hd : nd.dim = X.dim) :
    ∃ nd', mergePass2 X Y nd = some nd' ∧
      nd'.Holds (acc ++ ys.filter
        (fun b => !xs.any (fun a => equals a b X.dim || paretoDominate a b X.dim))) ∧
      nd'.dim = X.dim ∧ 0 < nd'.maxSize :=
  mergeFold_holds Y X.dim
    (fun y => scanND X (fun x => equals x y X.dim || paretoDominate x y X.dim) (List.range X.size))
    (fun b => !xs.any (fun a => equals a b X.dim || paretoDominate a b X.dim))
    (List.range Y.size) ys (holds_reads Y ys hY) (fun y hy => (hY.2.2.2 y hy).trans hdim)
    (fun _ _ => scanND_eq X _ _ xs (holds_reads X xs hX)) nd acc hnd hpos hd

theorem mergeNDContainer_holds (X Y : NDContainer) (xs ys : List Point)
    (hX : X.Holds xs) (hY : Y.Holds ys) (hdim : Y.dim = X.dim) :
    ∃ R, mergeNDContainer X Y = some R ∧ R.Holds (mergePoints X.dim xs ys) ∧
      R.dim = X.dim ∧ 0 < R.maxSize := by
  obtain ⟨nd1, h1, h2, h3, h4⟩ := mergePass1_holds X Y xs ys hX hY
    (createNDContainer DEFAULT_VECTOR_SIZE X.dim) [] (createNDContainer_holds _ _)
    (by simp [createNDContainer, DEFAULT_VECTOR_SIZE]) rfl
  obtain ⟨nd2, k1, k2, k3, k4⟩ := mergePass2_holds X Y xs ys hX hY hdim nd1 _ h2 h4 h3
  refine ⟨nd2, ?_, ?_, k3, k4⟩
  · simp only [mergeNDContainer, Option.bind_eq_bind, h1, Option.some_bind]
    exact k1
  · simpa [mergePoints] using k2

theorem equals_self (x : Point) (dim : Nat) : equals x x dim = true := by
  rw [equals_iff]; intros; rfl

theorem paretoDominate_self (x : Point) (dim : Nat) : paretoDominate x x dim = false := by
  simp [paretoDominate, equals_self]

theorem mergePoints_eq (dim : Nat) (as bs : List Point)
    (ha : ∀ a ∈ as, a.length = dim) (hb : ∀ b ∈ bs, b.length = dim) :
    mergePoints dim as bs =
      as.filter (fun a => decide (∀ b ∈ bs, paretoDominate b a dim = false)) ++
      bs.filter (fun b => decide (∀ a ∈ as, a ≠ b ∧ paretoDominate a b dim = false)) := by
  unfold mergePoints
  congr 1
  · apply List.filter_congr
    intro a _
    rw [Bool.eq_iff_iff]
    simp [List.any_eq_true]
  · apply List.filter_congr
    intro b hb'
    rw [Bool.eq_iff_iff]
    simp only [Bool.not_eq_true', List.any_eq_false, Bool.or_eq_true, not_or,
      decide_eq_true_eq, Bool.not_eq_true]
    constructor
    · intro h a haa
      refine ⟨?_, (h a haa).2⟩
      rintro rfl
      have := (h a haa).1
      rw [equals_self] at this
      exact Bool.noConfusion this
    · intro h a haa
      refine ⟨?_, (h a haa).2⟩
      have h1 := (h a haa).1
      have := equals_iff_eq a b dim (ha a haa) (hb b hb')
      cases he : equals a b dim
      · rfl
      · exact absurd (this.1 he) h1

theorem mergePoints_nonDominated (dim : Nat) (as bs : List Point)
    (ha : NonDominated dim as) (hb : NonDominated dim bs) :
    NonDominated dim (mergePoints dim as bs) := by
  unfold NonDominated mergePoints at *
  rw [List.pairwise_append]
  refine ⟨ha.filter _, hb.filter _, ?_⟩
  intro a haa b hbb
  rw [List.mem_filter] at haa hbb
  obtain ⟨ha1, ha2⟩ := haa
  obtain ⟨hb1, hb2⟩ := hbb
  simp only [Bool.not_eq_true', List.any_eq_false, Bool.or_eq_true, not_or,
    Bool.not_eq_true] at ha2 hb2
  refine ⟨?_, (hb2 a ha1).2, ha2 b hb1⟩
  rintro rfl
  have := (hb2 a ha1).1
  rw [equals_self] at this
  exact Bool.noConfusion this

theorem mem_mergePoints (dim : Nat) (as bs : List Point) (p : Point) :
    p ∈ mergePoints dim as bs ↔
      (p ∈ as ∧ ∀ b ∈ bs, paretoDominate b p dim = false) ∨
      (p ∈ bs ∧ ∀ a ∈ as, equals a p dim = false ∧ paretoDominate a p dim = false) := by
  simp [mergePoints, List.mem_append, List.mem_filter]

theorem nonDominated_not_dominated (dim : Nat) (ps : List Point) (h : NonDominated dim ps)
    (p q : Point) (hp : p ∈ ps) (hq : q ∈ ps) : paretoDominate q p dim = false := by
  by_cases hpq : p = q
  · subst hpq; exact paretoDominate_self p dim
  · exact List.Pairwise.forall_of_forall_of_flip (R := fun p q => paretoDominate q p dim = false)
      (l := ps) (fun x _ => paretoDominate_self x dim)
      (h.imp (fun h => h.2.2))
      (h.imp (fun h => h.2.1)) hp hq

theorem count_filter_eq (p : Point) (f : Point → Bool) (l : List Point) :
    (l.filter f).count p = if f p = true then l.count p else 0 := by
  by_cases h : f p = true
  · rw [if_pos h, List.count_filter h]
  · rw [if_neg h]
    apply List.count_eq_zero_of_not_mem
    intro hm
    exact h (List.mem_filter.1 hm).2

/-! ## The driver, generation by generation -/

theorem table_write_eq (t : Table) (j : Nat) (c : NDContainer) (h : j < t.length) :
    t.write j c = some (t.set j (some c)) := by
  simp [Table.write, h]

theorem table_read_set (t : Table) (j k : Nat) (c : NDContainer) (h : j < t.length) :
    Table.read (t.set j (some c)) k = if j = k then some c else t.read k := by
  unfold Table.read
  rw [List.getElem?_set]
  by_cases hjk : j = k
  · subst hjk
    rw [if_pos rfl, if_pos h, if_pos rfl]
    rfl
  · rw [if_neg hjk, if_neg hjk]

theorem table_read_lt (t : Table) (j : Nat) (c : NDContainer) (h : t.read j = some c) :
    j < t.length := by
  by_contra hcon
  have : t[j]? = none := List.getElem?_eq_none (by omega)
  simp [Table.read, this] at h

theorem cleanNDContainer_size (c c' : NDContainer) (h : cleanNDContainer c = some c') :
    c'.size = 0 := by
  simp only [cleanNDContainer, Option.bind_eq_bind, Option.bind_eq_some, Option.pure_def,
    Option.some.injEq] at h
  obtain ⟨_, _, h⟩ := h
  rw [← h]

/-- The cleaning loops of `modp`: the slots `s ≤ j < s + k` are cleaned, the others are not
touched. -/
theorem cleanLoop_spec (t : Table) (s k : Nat)
    (h : ∀ j, s ≤ j → j < s + k → ∃ c c', t.read j = some c ∧ cleanNDContainer c = some c') :
    ∃ t', (List.range' s k).foldlM (fun t j => t.clean j) t = some t' ∧
      t'.length = t.length ∧
      (∀ j, (j < s ∨ s + k ≤ j) → t'.read j = t.read j) ∧
      (∀ j, s ≤ j → j < s + k → ∃ c, t'.read j = some c ∧ c.size = 0) := by
  obtain ⟨t', h1, h2, h3, h4⟩ := foldlM_range'_inv (fun t j => t.clean j)
    (fun u t' => t'.length = t.length ∧
      (∀ j, (j < s ∨ s + u ≤ j) → t'.read j = t.read j) ∧
      (∀ j, s ≤ j → j < s + u → ∃ c, t'.read j = some c ∧ c.size = 0))
    s k t ⟨rfl, fun _ _ => rfl, fun j h1 h2 => by omega⟩
    (by
      rintro u st hu ⟨hl, hout, hin⟩
      obtain ⟨c, c', hc, hc'⟩ := h (s + u) (by omega) (by omega)
      have hr : st.read (s + u) = some c := by rw [hout _ (Or.inr (le_refl _))]; exact hc
      have hlt := table_read_lt st _ _ hr
      refine ⟨st.set (s + u) (some c'), ?_, by simp [hl], ?_, ?_⟩
      · simp [Table.clean, hr, hc', table_write_eq st _ _ hlt]
      · intro j hj
        rw [table_read_set _ _ _ _ hlt, if_neg (by omega)]
        exact hout j (by omega)
      · intro j hj1 hj2
        rw [table_read_set _ _ _ _ hlt]
        by_cases hj : s + u = j
        · rw [if_pos hj]
          exact ⟨c', rfl, cleanNDContainer_size c c' hc'⟩
        · rw [if_neg hj]
          exact hin j hj1 (by omega))
  exact ⟨t', h1, h2, h3, h4⟩

theorem dpTable_zero (heap : Heap) (values : List (List Int)) (weights : List Int) (n i : Nat) :
    dpTable heap values weights n i 0 = [basePoint heap n i 0] := by
  cases i <;> rfl

theorem basePoint_add_two (heap : Heap) (n i : Nat) :
    basePoint heap n (i + 2) 0 = basePoint heap n i 0 := by
  simp [basePoint, Nat.add_mod]

theorem initPrev_holds (heap : Heap) (values : List (List Int)) (weights : List Int)
    (capacity n : Nat) :
    ∃ prev, initPrev heap capacity n = some prev ∧
      TableHolds prev capacity n (dpTable heap values weights n 0) := by
  obtain ⟨prev, h1, h2, h3⟩ := foldlM_range_inv
    (fun t j => do
      let c ← baseCell n (heap.prevBase j)
      Table.write t j c)
    (fun u (t : Table) => t.length = capacity + 1 ∧
      ∀ j < u, ∃ c, t.read j = some c ∧ c.Holds (dpTable heap values weights n 0 j) ∧ c.dim = n)
    (capacity + 1) (List.replicate (capacity + 1) none)
    ⟨by simp, fun j hj => by omega⟩
    (by
      rintro u st hu ⟨hl, hin⟩
      obtain ⟨c, hc, hh, hd, -⟩ := baseCell_holds n (heap.prevBase u)
      refine ⟨st.set u (some c), ?_, by simp [hl], ?_⟩
      · simp [hc, table_write_eq st u c (by omega)]
      · intro j hj
        rw [table_read_set _ _ _ _ (by omega)]
        by_cases hju : u = j
        · subst hju
          rw [if_pos rfl]
          refine ⟨c, rfl, ?_, hd⟩
          simpa [dpTable, basePoint] using hh
        · rw [if_neg hju]
          exact hin j (by omega))
  exact ⟨prev, h1, h2, fun j hj => h3 j (by omega)⟩

theorem initCurr_holds (heap : Heap) (values : List (List Int)) (weights : List Int)
    (capacity n : Nat) :
    ∃ curr, initCurr heap capacity n = some curr ∧ curr.length = capacity + 1 ∧
      (∃ c, Table.read curr 0 = some c ∧ c.Holds (dpTable heap values weights n 1 0) ∧
        c.dim = n) ∧
      ∀ j, 1 ≤ j → Table.read curr j = none := by
  obtain ⟨c, hc, hh, hd, -⟩ := baseCell_holds n heap.currBase
  refine ⟨(List.replicate (capacity + 1) none).set 0 (some c), ?_, by simp, ?_, ?_⟩
  · simp [initCurr, hc, Table.write]
  · rw [table_read_set _ _ _ _ (by simp)]
    refine ⟨c, by simp, ?_, hd⟩
    simpa [dpTable, basePoint] using hh
  · intro j hj
    rw [table_read_set _ _ _ _ (by simp), if_neg (by omega)]
    simp [Table.read, List.getElem?_replicate]


theorem modpCell_holds (heap : Heap) (values : List (List Int)) (weights : List Int)
    (capacity m n : Nat) (hw : weights.length = m) (hv : values.length = m)
    (hpos : ∀ w ∈ weights, 1 ≤ w) (prev : Table) (i j : Nat) (hi : i < m)
    (hj : j + 1 ≤ capacity)
    (hprev : TableHolds prev capacity n (dpTable heap values weights n i)) :
    ∃ c, modpCell heap values weights prev (i + 1) (j + 1) = some c ∧
      c.Holds (dpTable heap values weights n (i + 1) (j + 1)) ∧ c.dim = n := by
  have hiw : i < weights.length := by omega
  have hiv : i < values.length := by omega
  have hwi : weights[i]? = some weights[i] := List.getElem?_eq_getElem hiw
  have hvi : values[i]? = some values[i] := List.getElem?_eq_getElem hiv
  have hw1 : 1 ≤ weights[i] := hpos _ (List.getElem_mem hiw)
  obtain ⟨pj, hpj, hpjH, hpjd⟩ := hprev.2 (j + 1) hj
  simp only [modpCell, Nat.add_sub_cancel, hwi, Option.bind_eq_bind, Option.some_bind,
    dpTable, hvi]
  by_cases hlt : ((j + 1 : Nat) : Int) < weights[i]
  · simp only [hlt, if_true, hpj, Option.some_bind]
    obtain ⟨R, h1, h2, h3, -⟩ := cloneNDContainer_holds pj _ hpjH
    exact ⟨R, h1, h2, h3.trans hpjd⟩
  · simp only [hlt, if_false]
    have hidx : (((j + 1 : Nat) : Int) - weights[i]).toNat ≤ capacity := by omega
    obtain ⟨src, hsrc, hsrcH, hsrcd⟩ := hprev.2 _ hidx
    obtain ⟨temp, ht1, ht2, ht3, -⟩ := add_holds (heap.shifted (i + 1) (j + 1)) src values[i] _ hsrcH
    obtain ⟨R, hm1, hm2, hm3, -⟩ := mergeNDContainer_holds temp pj _ _ ht2 hpjH
      (by rw [hpjd, ht3, hsrcd])
    have hclean := cleanNDContainer_holds temp _ ht2
    rw [ht3, hsrcd] at hm2 hm3
    refine ⟨R, ?_, hm2, hm3⟩
    simp only [hsrc, ht1, hpj, hm1, hclean, Option.some_bind, Option.pure_def]

theorem modpRow_holds (heap : Heap) (values : List (List Int)) (weights : List Int)
    (capacity m n : Nat) (hw : weights.length = m) (hv : values.length = m)
    (hpos : ∀ w ∈ weights, 1 ≤ w) (prev curr : Table) (i : Nat) (hi : i < m)
    (hprev : TableHolds prev capacity n (dpTable heap values weights n i))
    (hlen : curr.length = capacity + 1)
    (h0 : ∃ c, Table.read curr 0 = some c ∧ c.Holds (dpTable heap values weights n (i + 1) 0) ∧
      c.dim = n) :
    ∃ curr', modpRow heap values weights capacity prev curr (i + 1) = some curr' ∧
      TableHolds curr' capacity n (dpTable heap values weights n (i + 1)) := by
  obtain ⟨curr', h1, h2, h3, h4⟩ := foldlM_range'_inv
    (fun curr j => do
      let c ← modpCell heap values weights prev (i + 1) j
      Table.write curr j c)
    (fun u (t : Table) => t.length = capacity + 1 ∧ t.read 0 = Table.read curr 0 ∧
      ∀ j, 1 ≤ j → j < 1 + u → ∃ c, t.read j = some c ∧
        c.Holds (dpTable heap values weights n (i + 1) j) ∧ c.dim = n)
    1 capacity curr ⟨hlen, rfl, fun j h1 h2 => by omega⟩
    (by
      rintro u st hu ⟨hl, hz, hin⟩
      obtain ⟨c, hc, hh, hd⟩ := modpCell_holds heap values weights capacity m n hw hv hpos
        prev i u hi (by omega) hprev
      rw [Nat.add_comm u 1] at hc hh
      refine ⟨st.set (1 + u) (some c), ?_, by simp [hl], ?_, ?_⟩
      · simp [hc, table_write_eq st (1 + u) c (by omega)]
      · rw [table_read_set _ _ _ _ (by omega), if_neg (by omega)]
        exact hz
      · intro j hj1 hj2
        rw [table_read_set _ _ _ _ (by omega)]
        by_cases hju : 1 + u = j
        · subst hju
          rw [if_pos rfl]
          exact ⟨c, rfl, hh, hd⟩
        · rw [if_neg hju]
          exact hin j hj1 (by omega))
  refine ⟨curr', h1, h2, ?_⟩
  intro j hj
  by_cases hj0 : j = 0
  · subst hj0
    rw [h3]
    exact h0
  · exact h4 j (by omega) (by omega)

theorem modpStep_inv (heap : Heap) (values : List (List Int)) (weights : List Int)
    (capacity m n : Nat) (hw : weights.length = m) (hv : values.length = m)
    (hpos : ∀ w ∈ weights, 1 ≤ w) (i : Nat) (hi : i < m) (st : Table × Table)
    (h : DriverInv heap values weights capacity n i st) :
    ∃ st', modpStep heap values weights capacity st (i + 1) = some st' ∧
      DriverInv heap values weights capacity n (i + 1) st' := by
  obtain ⟨hprev, hlen, h0, -⟩ := h
  obtain ⟨curr', hr1, hr2⟩ := modpRow_holds heap values weights capacity m n hw hv hpos
    st.1 st.2 i hi hprev hlen h0
  obtain ⟨t', hc1, hc2, hc3, hc4⟩ := cleanLoop_spec st.1 1 capacity (by
    intro j hj1 hj2
    obtain ⟨c, hc, hh, -⟩ := hprev.2 j (by omega)
    exact ⟨c, _, hc, cleanNDContainer_holds c _ hh⟩)
  refine ⟨(curr', t'), ?_, hr2, hc2.trans hprev.1, ?_, ?_⟩
  · simp only [modpStep, hr1, Option.bind_eq_bind, Option.some_bind, hc1, Option.pure_def]
  · obtain ⟨c, hc, hh, hd⟩ := hprev.2 0 (by omega)
    refine ⟨c, (hc3 0 (Or.inl (by omega))).trans hc, ?_, hd⟩
    rw [dpTable_zero, basePoint_add_two, ← dpTable_zero heap values weights]
    exact hh
  · intro _ j hj1 hj2
    exact hc4 j hj1 (by omega)

theorem modpLoop_inv (heap : Heap) (values : List (List Int)) (weights : List Int)
    (capacity m n : Nat) (hw : weights.length = m) (hv : values.length = m)
    (hpos : ∀ w ∈ weights, 1 ≤ w) (st : Table × Table)
    (h : DriverInv heap values weights capacity n 0 st) :
    ∃ st', modpLoop heap values weights capacity m st = some st' ∧
      DriverInv heap values weights capacity n m st' :=
  foldlM_range'_inv (modpStep heap values weights capacity)
    (DriverInv heap values weights capacity n) 1 m st h
    (fun t st' ht hinv => by
      rw [Nat.add_comm 1 t]
      exact modpStep_inv heap values weights capacity m n hw hv hpos t ht st' hinv)

/-- The driver returns the archive of cell `DP[m][capacity]` of the full table; it needs
`1 ≤ m` or `capacity = 0`, since with no item the final cleaning of `curr` meets slots
that were never written. -/
theorem modp_refines (heap : Heap) (values : List (List Int)) (weights : List Int)
    (capacity m n : Nat) (hw : weights.length = m) (hv : values.length = m)
    (hpos : ∀ w ∈ weights, 1 ≤ w) (hm : 1 ≤ m ∨ capacity = 0) :
    ∃ R, modp heap values weights capacity m n = some R ∧
      R.Holds (dpTable heap values weights n m capacity) ∧ R.dim = n := by
  obtain ⟨prev0, hp1, hp2⟩ := initPrev_holds heap values weights capacity n
  obtain ⟨curr0, hq1, hq2, hq3, -⟩ := initCurr_holds heap values weights capacity n
  obtain ⟨⟨prev, curr⟩, hl1, hprev, hclen, hc0, hcj⟩ := modpLoop_inv heap values weights
    capacity m n hw hv hpos (prev0, curr0) ⟨hp2, hq2, hq3, fun h => by omega⟩
  obtain ⟨tc, htc, -⟩ := cleanLoop_spec curr 0 (capacity + 1) (by
    intro j _ hj2
    by_cases hj0 : j = 0
    · subst hj0
      obtain ⟨c, hc, hh, -⟩ := hc0
      exact ⟨c, _, hc, cleanNDContainer_holds c _ hh⟩
    · rcases hm with hm | hm
      · obtain ⟨c, hc, hs⟩ := hcj hm j (by omega) (by omega)
        exact ⟨c, _, hc, cleanNDContainer_cleaned c hs⟩
      · omega)
  obtain ⟨tp, htp1, htp2, htp3, -⟩ := cleanLoop_spec prev 0 capacity (by
    intro j _ hj2
    obtain ⟨c, hc, hh, -⟩ := hprev.2 j (by omega)
    exact ⟨c, _, hc, cleanNDContainer_holds c _ hh⟩)
  obtain ⟨R, hR, hh, hd⟩ := hprev.2 capacity (le_refl _)
  refine ⟨R, ?_, hh, hd⟩
  rw [← List.range_eq_range'] at htc htp1
  simp only [modp, hp1, hq1, hl1, htc, htp1, Option.bind_eq_bind, Option.some_bind]
  rw [htp3 capacity (Or.inr (by omega))]
  exact hR

/-! ## The table on lists of points -/

theorem translate_getD (dim : Nat) (delta : List Int) (p : Point) (k : Nat) (hk : k < dim) :
    (translate dim delta p).getD k 0 = p.getD k 0 + delta.getD k 0 := by
  simp [translate, List.getD_eq_getElem?_getD, List.getElem?_map, List.getElem?_range hk]

theorem shift_getD (dim : Nat) (delta : List Int) (p : Point) (k : Nat) (hk : k < dim) :
    (shift dim delta p).getD k 0 = wrapInt (p.getD k 0 + delta.getD k 0) := by
  simp [shift, List.getD_eq_getElem?_getD, List.getElem?_map, List.getElem?_range hk]

theorem equals_translate (dim : Nat) (delta : List Int) (x y : Point) :
    equals (translate dim delta x) (translate dim delta y) dim = equals x y dim := by
  rw [Bool.eq_iff_iff, equals_iff, equals_iff]
  constructor
  · intro h k hk
    have := h k hk
    rw [translate_getD _ _ _ _ hk, translate_getD _ _ _ _ hk] at this
    omega
  · intro h k hk
    rw [translate_getD _ _ _ _ hk, translate_getD _ _ _ _ hk, h k hk]

theorem paretoDominate_translate (dim : Nat) (delta : List Int) (x y : Point) :
    paretoDominate (translate dim delta x) (translate dim delta y) dim =
      paretoDominate x y dim := by
  rw [Bool.eq_iff_iff, paretoDominate_iff, paretoDominate_iff, equals_translate]
  constructor
  · rintro ⟨h1, h2⟩
    refine ⟨h1, fun k hk => ?_⟩
    have := h2 k hk
    rw [translate_getD _ _ _ _ hk, translate_getD _ _ _ _ hk] at this
    omega
  · rintro ⟨h1, h2⟩
    refine ⟨h1, fun k hk => ?_⟩
    have := h2 k hk
    rw [translate_getD _ _ _ _ hk, translate_getD _ _ _ _ hk]
    omega

theorem nonDominated_translate (dim : Nat) (delta : List Int) (ps : List Point)
    (hlen : ∀ p ∈ ps, p.length = dim) (h : NonDominated dim ps) :
    NonDominated dim (ps.map (translate dim delta)) := by
  unfold NonDominated at *
  rw [List.pairwise_map]
  refine List.Pairwise.imp_of_mem ?_ h
  intro p q hp hq ⟨h1, h2, h3⟩
  refine ⟨?_, by rw [paretoDominate_translate]; exact h2,
    by rw [paretoDominate_translate]; exact h3⟩
  intro heq
  have h4 : equals (translate dim delta p) (translate dim delta q) dim = true := by
    rw [heq]; exact equals_self _ _
  rw [equals_translate, equals_iff_eq p q dim (hlen p hp) (hlen q hq)] at h4
  exact h1 h4

theorem mergePoints_subset (dim : Nat) (as bs : List Point) (p : Point)
    (h : p ∈ mergePoints dim as bs) : p ∈ as ∨ p ∈ bs := by
  rcases (mem_mergePoints dim as bs p).1 h with h | h
  · exact Or.inl h.1
  · exact Or.inr h.1

theorem dpTable_length (heap : Heap) (values : List (List Int)) (weights : List Int)
    (n i j : Nat) : ∀ p ∈ dpTable heap values weights n i j, p.length = n := by
  induction i generalizing j with
  | zero =>
    intro p hp
    simp only [dpTable, List.mem_singleton] at hp
    subst hp
    unfold basePoint
    split <;> exact createPoint_length _ _
  | succ i ih =>
    cases j with
    | zero =>
      intro p hp
      simp only [dpTable, List.mem_singleton] at hp
      subst hp
      unfold basePoint
      split <;> exact createPoint_length _ _
    | succ j =>
      intro p hp
      simp only [dpTable] at hp
      split at hp
      · split at hp
        · exact ih _ p hp
        · rcases mergePoints_subset _ _ _ _ hp with h | h
          · obtain ⟨q, _, rfl⟩ := List.mem_map.1 h
            exact shift_length _ _ _
          · exact ih _ p h
      · simp at hp

theorem dpExact_length (heap : Heap) (values : List (List Int)) (weights : List Int)
    (n i j : Nat) : ∀ p ∈ dpExact heap values weights n i j, p.length = n := by
  induction i generalizing j with
  | zero =>
    intro p hp
    simp only [dpExact, List.mem_singleton] at hp
    subst hp
    unfold basePoint
    split <;> exact createPoint_length _ _
  | succ i ih =>
    cases j with
    | zero =>
      intro p hp
      simp only [dpExact, List.mem_singleton] at hp
      subst hp
      unfold basePoint
      split <;> exact createPoint_length _ _
    | succ j =>
      intro p hp
      simp only [dpExact] at hp
      split at hp
      · split at hp
        · exact ih _ p hp
        · rcases mergePoints_subset _ _ _ _ hp with h | h
          · obtain ⟨q, _, rfl⟩ := List.mem_map.1 h
            exact translate_length _ _ _
          · exact ih _ p h
      · simp at hp

theorem dpExact_nonDominated (heap : Heap) (values : List (List Int)) (weights : List Int)
    (n i j : Nat) : NonDominated n (dpExact heap values weights n i j) := by
  induction i generalizing j with
  | zero => simp [dpExact, NonDominated]
  | succ i ih =>
    cases j with
    | zero => simp [dpExact, NonDominated]
    | succ j =>
      simp only [dpExact]
      split
      · split
        · exact ih _
        · exact mergePoints_nonDominated _ _ _
            (nonDominated_translate _ _ _ (dpExact_length _ _ _ _ _ _) (ih _)) (ih _)
      · simp [NonDominated]

theorem dpTable_eq_exact (heap : Heap) (values : List (List Int)) (weights : List Int)
    (capacity m n : Nat) (hw : weights.length = m) (hv : values.length = m)
    (hpos : ∀ w ∈ weights, 1 ≤ w) (hx : SumsExact heap values weights capacity m n)
    (i j : Nat) (hi : i ≤ m) (hj : j ≤ capacity) :
    dpTable heap values weights n i j = dpExact heap values weights n i j := by
  induction i generalizing j with
  | zero => rfl
  | succ i ih =>
    cases j with
    | zero => rfl
    | succ j =>
      have hiw : i < weights.length := by omega
      have hiv : i < values.length := by omega
      have hwi : weights[i]? = some weights[i] := List.getElem?_eq_getElem hiw
      have hvi : values[i]? = some values[i] := List.getElem?_eq_getElem hiv
      have hw1 : 1 ≤ weights[i] := hpos _ (List.getElem_mem hiw)
      simp only [dpTable, dpExact, hwi, hvi]
      by_cases hlt : ((j + 1 : Nat) : Int) < weights[i]
      · simp only [hlt, if_true]
        exact ih (j + 1) (by omega) hj
      · simp only [hlt, if_false]
        have hidx : (((j + 1 : Nat) : Int) - weights[i]).toNat ≤ capacity := by omega
        rw [← ih (j + 1) (by omega) hj, ← ih _ (by omega) hidx]
        congr 1
        apply List.map_congr_left
        intro p hp
        apply shift_eq_translate
        intro k hk
        have := hx i (by omega) (j + 1) hj
        rw [List.getD_eq_getElem _ _ hiw, List.getD_eq_getElem _ _ hiv] at this
        exact this hlt p hp k hk

theorem dpTable_nonDominated (heap : Heap) (values : List (List Int)) (weights : List Int)
    (capacity m n : Nat) (hw : weights.length = m) (hv : values.length = m)
    (hpos : ∀ w ∈ weights, 1 ≤ w) (hx : SumsExact heap values weights capacity m n) :
    NonDominated n (dpTable heap values weights n m capacity) := by
  rw [dpTable_eq_exact heap values weights capacity m n hw hv hpos hx m capacity (le_refl _)
    (le_refl _)]
  exact dpExact_nonDominated heap values weights n m capacity

theorem foldlM_none_of_mem {σ : Type} (f : σ → Nat → Option σ) (P : σ → Prop) (j : Nat)
    (hpres : ∀ st a st', P st → f st a = some st' → P st')
    (hfail : ∀ st, P st → f st j = none) (l : List Nat) (hj : j ∈ l) (init : σ)
    (h0 : P init) : l.foldlM f init = none := by
  induction l generalizing init with
  | nil => simp at hj
  | cons a l ih =>
    rw [List.foldlM_cons]
    by_cases haj : a = j
    · subst haj
      rw [hfail init h0]
      rfl
    · cases hfa : f init a with
      | none => rfl
      | some st' =>
        have hj' : j ∈ l := by
          rcases List.mem_cons.1 hj with h | h
          · exact absurd h.symm haj
          · exact h
        exact ih hj' st' (hpres init a st' h0 hfa)

/-- With no item and a positive capacity the final cleaning of `curr` fails on slot 1,
which was never written. -/
theorem modp_no_item (heap : Heap) (values : List (List Int)) (weights : List Int)
    (capacity n : Nat) (hc : 1 ≤ capacity) : modp heap values weights capacity 0 n = none := by
  obtain ⟨prev0, hp1, -⟩ := initPrev_holds heap values weights capacity n
  obtain ⟨curr0, hq1, hq2, -, hq4⟩ := initCurr_holds heap values weights capacity n
  have hclean : (List.range (capacity + 1)).foldlM (fun t j => Table.clean t j) curr0 = none := by
    apply foldlM_none_of_mem (fun t j => Table.clean t j) (fun t => Table.read t 1 = none) 1
    · intro st a st' hst hcl
      simp only [Table.clean, Option.bind_eq_bind, Option.bind_eq_some] at hcl
      obtain ⟨c, hc1, c', -, hc3⟩ := hcl
      have hlt := table_read_lt st a c hc1
      rw [table_write_eq st a c' hlt, Option.some.injEq] at hc3
      rw [← hc3, table_read_set _ _ _ _ hlt]
      have : a ≠ 1 := by
        rintro rfl
        rw [hst] at hc1
        exact Option.noConfusion hc1
      rw [if_neg this]
      exact hst
    · intro st hst
      simp [Table.clean, hst]
    · exact List.mem_range.2 (by omega)
    · exact hq4 1 (le_refl _)
  simp only [modp, hp1, hq1, modpLoop, List.range'_zero, List.foldlM_nil, Option.bind_eq_bind,
    Option.some_bind, Option.pure_def, hclean, Option.none_bind]

theorem holds_pairwise_index (R : NDContainer) (ps : List Point) (h : R.Holds ps)
    (Q : Point → Point → Prop) (hsymm : ∀ p q, Q p q → Q q p) (hQ : ps.Pairwise Q)
    (a b : Nat) (p q : Point) (ha : a < R.size) (hb : b < R.size) (hab : a ≠ b)
    (hp : R.readPoint a = some p) (hq : R.readPoint b = some q) : Q p q := by
  rw [holds_iff] at h
  obtain ⟨-, -, hlen, hread, -⟩ := h
  rw [hread a ha] at hp
  rw [hread b hb] at hq
  have ha' : a < ps.length := by omega
  have hb' : b < ps.length := by omega
  rw [List.getElem?_eq_getElem ha', Option.some.injEq] at hp
  rw [List.getElem?_eq_getElem hb', Option.some.injEq] at hq
  rw [List.pairwise_iff_getElem] at hQ
  rcases Nat.lt_or_gt_of_ne hab with hlt | hgt
  · rw [← hp, ← hq]
    exact hQ a b ha' hb' hlt
  · rw [← hp, ← hq]
    exact hsymm _ _ (hQ b a hb' ha' hgt)

/-! ## The union covers its arguments -/

theorem weakDom_iff (dim : Nat) (p x : Point) :
    WeakDom dim p x ↔ (equals p x dim = true ∨ paretoDominate p x dim = true) := by
  rw [paretoDominate_iff]
  constructor
  · intro h
    cases he : equals p x dim
    · exact Or.inr ⟨rfl, h⟩
    · exact Or.inl rfl
  · rintro (h | h)
    · rw [equals_iff] at h
      intro k hk
      rw [h k hk]
    · exact h.2

theorem weakDom_trans (dim : Nat) (p q r : Point) (h1 : WeakDom dim p q)
    (h2 : WeakDom dim q r) : WeakDom dim p r :=
  fun k hk => le_trans (h2 k hk) (h1 k hk)

theorem weakDom_refl (dim : Nat) (p : Point) : WeakDom dim p p := fun _ _ => le_refl _

theorem coordSum_le (dim : Nat) (p x : Point) (h : WeakDom dim p x) :
    coordSum dim x ≤ coordSum dim p :=
  Finset.sum_le_sum (fun k hk => h k (Finset.mem_range.1 hk))

theorem coordSum_lt (dim : Nat) (p x : Point) (h : paretoDominate p x dim = true) :
    coordSum dim x < coordSum dim p := by
  rw [paretoDominate_iff] at h
  obtain ⟨h1, h2⟩ := h
  have h3 : ∃ k < dim, x.getD k 0 < p.getD k 0 := by
    by_contra hcon
    push_neg at hcon
    have : equals p x dim = true := by
      rw [equals_iff]
      intro k hk
      exact le_antisymm (hcon k hk) (h2 k hk)
    rw [this] at h1
    exact Bool.noConfusion h1
  obtain ⟨k, hk, hlt⟩ := h3
  exact Finset.sum_lt_sum (fun k hk => h2 k (Finset.mem_range.1 hk))
    ⟨k, Finset.mem_range.2 hk, hlt⟩

theorem paretoDominate_congr_right (dim : Nat) (b a y : Point) (h : equals a y dim = true) :
    paretoDominate b a dim = paretoDominate b y dim := by
  rw [equals_iff] at h
  rw [Bool.eq_iff_iff, paretoDominate_iff, paretoDominate_iff]
  have he : equals b a dim = equals b y dim := by
    rw [Bool.eq_iff_iff, equals_iff, equals_iff]
    constructor
    · intro h1 k hk; rw [h1 k hk, h k hk]
    · intro h1 k hk; rw [h1 k hk, h k hk]
  rw [he]
  constructor
  · rintro ⟨h1, h2⟩
    exact ⟨h1, fun k hk => by rw [← h k hk]; exact h2 k hk⟩
  · rintro ⟨h1, h2⟩
    exact ⟨h1, fun k hk => by rw [h k hk]; exact h2 k hk⟩

/-- Every point of either argument is weakly dominated by a point the union keeps. -/
theorem mergePoints_covers (dim : Nat) (as bs : List Point) (x : Point)
    (hx : x ∈ as ++ bs) : ∃ r ∈ mergePoints dim as bs, WeakDom dim r x := by
  let s : Finset Point := ((as ++ bs).filter (fun y => decide (WeakDom dim y x))).toFinset
  have hne : s.Nonempty := ⟨x, by
    simp only [s, List.mem_toFinset, List.mem_filter, decide_eq_true_eq]
    exact ⟨hx, weakDom_refl dim x⟩⟩
  obtain ⟨y, hy, hmax⟩ := Finset.exists_max_image s (coordSum dim) hne
  simp only [s, List.mem_toFinset, List.mem_filter, decide_eq_true_eq] at hy hmax
  obtain ⟨hy1, hy2⟩ := hy
  have hnodom : ∀ z ∈ as ++ bs, paretoDominate z y dim = false := by
    intro z hz
    cases hd : paretoDominate z y dim
    · rfl
    · have h1 : WeakDom dim z x :=
        weakDom_trans dim z y x ((weakDom_iff dim z y).2 (Or.inr hd)) hy2
      have h2 := hmax z ⟨hz, h1⟩
      have h3 := coordSum_lt dim z y hd
      omega
  rcases List.mem_append.1 hy1 with hya | hyb
  · refine ⟨y, ?_, hy2⟩
    rw [mem_mergePoints]
    exact Or.inl ⟨hya, fun b hb => hnodom b (List.mem_append_right _ hb)⟩
  · by_cases hkeep : ∀ a ∈ as, equals a y dim = false ∧ paretoDominate a y dim = false
    · refine ⟨y, ?_, hy2⟩
      rw [mem_mergePoints]
      exact Or.inr ⟨hyb, hkeep⟩
    · push_neg at hkeep
      obtain ⟨a, ha, hne⟩ := hkeep
      have heq : equals a y dim = true := by
        cases he : equals a y dim
        · exact absurd (hnodom a (List.mem_append_left _ ha)) (hne he)
        · rfl
      refine ⟨a, ?_, weakDom_trans dim a y x ((weakDom_iff dim a y).2 (Or.inl heq)) hy2⟩
      rw [mem_mergePoints]
      refine Or.inl ⟨ha, fun b hb => ?_⟩
      rw [paretoDominate_congr_right dim b a y heq]
      exact hnodom b (List.mem_append_right _ hb)

/-! ## The table with zeroed base points -/

theorem subsetWeight_nil (weights : List Int) : subsetWeight weights [] = 0 := rfl

theorem subsetWeight_append (weights : List Int) (S : List Nat) (i : Nat) (w : Int)
    (hw : weights[i]? = some w) : subsetWeight weights (S ++ [i]) = subsetWeight weights S + w := by
  simp [subsetWeight, List.getD_eq_getElem?_getD, hw]

theorem subsetValue_length (values : List (List Int)) (n : Nat) (S : List Nat) :
    (subsetValue values n S).length = n := by
  simp [subsetValue]

theorem subsetValue_append (values : List (List Int)) (n : Nat) (S : List Nat) (i : Nat)
    (v : List Int) (hv : values[i]? = some v) :
    subsetValue values n (S ++ [i]) = translate n v (subsetValue values n S) := by
  unfold subsetValue translate
  apply List.ext_getElem (by simp)
  intro k h1 h2
  have hk : k < n := by simpa using h1
  simp [List.getD_eq_getElem?_getD, hv, List.getElem?_range hk]

theorem basePoint_zeroed (heap : Heap) (values : List (List Int)) (capacity n i j : Nat)
    (hz : heap.BaseZeroed capacity n) (hj : j ≤ capacity) :
    basePoint heap n i j = subsetValue values n [] := by
  unfold basePoint subsetValue
  split
  · rw [createPoint_eq]
    apply List.map_congr_left
    intro k hk
    simpa using hz.2 k (List.mem_range.1 hk)
  · rw [createPoint_eq]
    apply List.map_congr_left
    intro k hk
    simpa using hz.1 j hj k (List.mem_range.1 hk)

theorem feasible_mono (weights : List Int) (j i : Nat) (S : List Nat)
    (h : Feasible weights j i S) : Feasible weights j (i + 1) S := by
  refine ⟨?_, h.2⟩
  rw [List.range_succ]
  exact h.1.trans (List.sublist_append_left _ _)

theorem sublist_range_succ (S : List Nat) (i : Nat) (h : S.Sublist (List.range (i + 1))) :
    S.Sublist (List.range i) ∨ ∃ S', S = S' ++ [i] ∧ S'.Sublist (List.range i) := by
  rw [List.range_succ, List.sublist_append_iff] at h
  obtain ⟨l1, l2, rfl, h1, h2⟩ := h
  rcases List.sublist_singleton.1 h2 with rfl | rfl
  · left; simpa using h1
  · right; exact ⟨l1, rfl, h1⟩

theorem subsetWeight_ge_length (weights : List Int) (hpos : ∀ w ∈ weights, 1 ≤ w)
    (S : List Nat) (hS : ∀ i ∈ S, i < weights.length) :
    (S.length : Int) ≤ subsetWeight weights S := by
  induction S with
  | nil => simp [subsetWeight]
  | cons a S ih =>
    have ha : a < weights.length := hS a (List.mem_cons_self _ _)
    have h1 : 1 ≤ weights.getD a 0 := by
      rw [List.getD_eq_getElem _ _ ha]
      exact hpos _ (List.getElem_mem ha)
    have h2 := ih (fun i hi => hS i (List.mem_cons_of_mem _ hi))
    simp only [subsetWeight, List.map_cons, List.sum_cons, List.length_cons] at h2 ⊢
    push_cast
    omega

theorem feasible_zero_capacity (weights : List Int) (hpos : ∀ w ∈ weights, 1 ≤ w) (i : Nat)
    (hi : i ≤ weights.length) (S : List Nat) (h : Feasible weights 0 i S) : S = [] := by
  have h1 := subsetWeight_ge_length weights hpos S (fun k hk => by
    have := List.mem_range.1 (h.1.subset hk)
    omega)
  have h2 := h.2
  have : S.length = 0 := by
    have h3 : (S.length : Int) ≤ 0 := by
      simp only [Nat.cast_zero] at h2
      omega
    omega
  exact List.length_eq_zero.1 this

theorem dpExact_sound (heap : Heap) (values : List (List Int)) (weights : List Int)
    (capacity m n : Nat) (hw : weights.length = m) (hv : values.length = m)
    (hpos : ∀ w ∈ weights, 1 ≤ w)
    (hz : heap.BaseZeroed capacity n) (i j : Nat) (hi : i ≤ m) (hj : j ≤ capacity) :
    ∀ p ∈ dpExact heap values weights n i j,
      ∃ S, Feasible weights j i S ∧ p = subsetValue values n S := by
  induction i generalizing j with
  | zero =>
    intro p hp
    simp only [dpExact, List.mem_singleton] at hp
    refine ⟨[], ⟨List.nil_sublist _, by simp [subsetWeight]⟩, ?_⟩
    rw [hp]
    exact basePoint_zeroed heap values capacity n 0 j hz hj
  | succ i ih =>
    cases j with
    | zero =>
      intro p hp
      simp only [dpExact, List.mem_singleton] at hp
      refine ⟨[], ⟨List.nil_sublist _, by simp [subsetWeight]⟩, ?_⟩
      rw [hp]
      exact basePoint_zeroed heap values capacity n (i + 1) 0 hz hj
    | succ j =>
      have hiw : i < weights.length := by omega
      have hiv : i < values.length := by omega
      have hwi : weights[i]? = some weights[i] := List.getElem?_eq_getElem hiw
      have hvi : values[i]? = some values[i] := List.getElem?_eq_getElem hiv
      have hw1 : 1 ≤ weights[i] := hpos _ (List.getElem_mem hiw)
      intro p hp
      simp only [dpExact, hwi, hvi] at hp
      split at hp
      · obtain ⟨S, hS, hpS⟩ := ih (j + 1) (by omega) hj p hp
        exact ⟨S, feasible_mono _ _ _ _ hS, hpS⟩
      · rename_i hlt
        rcases mergePoints_subset _ _ _ _ hp with h | h
        · obtain ⟨q, hq, rfl⟩ := List.mem_map.1 h
          obtain ⟨S, hS, hqS⟩ := ih (((j + 1 : Nat) : Int) - weights[i]).toNat (by omega)
            (by omega) q hq
          refine ⟨S ++ [i], ⟨?_, ?_⟩, ?_⟩
          · rw [List.range_succ]
            exact List.Sublist.append hS.1 (List.Sublist.refl _)
          · rw [subsetWeight_append _ _ _ _ hwi]
            have := hS.2
            omega
          · rw [subsetValue_append _ _ _ _ _ hvi, hqS]
        · obtain ⟨S, hS, hpS⟩ := ih (j + 1) (by omega) hj p h
          exact ⟨S, feasible_mono _ _ _ _ hS, hpS⟩

theorem weakDom_translate (dim : Nat) (delta : List Int) (p x : Point)
    (h : WeakDom dim p x) : WeakDom dim (translate dim delta p) (translate dim delta x) := by
  intro k hk
  rw [translate_getD _ _ _ _ hk, translate_getD _ _ _ _ hk]
  have := h k hk
  omega

theorem dpExact_complete (heap : Heap) (values : List (List Int)) (weights : List Int)
    (capacity m n : Nat) (hw : weights.length = m) (hv : values.length = m)
    (hpos : ∀ w ∈ weights, 1 ≤ w)
    (hz : heap.BaseZeroed capacity n) (i j : Nat) (hi : i ≤ m) (hj : j ≤ capacity) :
    ∀ S, Feasible weights j i S →
      ∃ p ∈ dpExact heap values weights n i j, WeakDom n p (subsetValue values n S) := by
  induction i generalizing j with
  | zero =>
    intro S hS
    have : S = [] := by simpa using hS.1
    subst this
    refine ⟨basePoint heap n 0 j, by simp [dpExact], ?_⟩
    rw [basePoint_zeroed heap values capacity n 0 j hz hj]
    exact weakDom_refl _ _
  | succ i ih =>
    cases j with
    | zero =>
      intro S hS
      have : S = [] := feasible_zero_capacity weights hpos (i + 1) (by omega) S hS
      subst this
      refine ⟨basePoint heap n (i + 1) 0, by simp [dpExact], ?_⟩
      rw [basePoint_zeroed heap values capacity n (i + 1) 0 hz hj]
      exact weakDom_refl _ _
    | succ j =>
      have hiw : i < weights.length := by omega
      have hiv : i < values.length := by omega
      have hwi : weights[i]? = some weights[i] := List.getElem?_eq_getElem hiw
      have hvi : values[i]? = some values[i] := List.getElem?_eq_getElem hiv
      have hw1 : 1 ≤ weights[i] := hpos _ (List.getElem_mem hiw)
      intro S hS
      simp only [dpExact, hwi, hvi]
      rcases sublist_range_succ S i hS.1 with h | ⟨S', rfl, h⟩
      · obtain ⟨p, hp, hpS⟩ := ih (j + 1) (by omega) hj S ⟨h, hS.2⟩
        split
        · exact ⟨p, hp, hpS⟩
        · obtain ⟨r, hr, hrp⟩ := mergePoints_covers n
            ((dpExact heap values weights n i (((j + 1 : Nat) : Int) - weights[i]).toNat).map
              (translate n values[i]))
            (dpExact heap values weights n i (j + 1)) p (List.mem_append_right _ hp)
          exact ⟨r, hr, weakDom_trans _ _ _ _ hrp hpS⟩
      · have hwS := hS.2
        rw [subsetWeight_append _ _ _ _ hwi] at hwS
        have hS'0 : 0 ≤ subsetWeight weights S' := by
          have := subsetWeight_ge_length weights hpos S' (fun k hk => by
            have := List.mem_range.1 (h.subset hk)
            omega)
          omega
        have hnlt : ¬ ((j + 1 : Nat) : Int) < weights[i] := by omega
        rw [if_neg hnlt]
        obtain ⟨p, hp, hpS⟩ := ih (((j + 1 : Nat) : Int) - weights[i]).toNat (by omega)
          (by omega) S' ⟨h, by omega⟩
        obtain ⟨r, hr, hrp⟩ := mergePoints_covers n
          ((dpExact heap values weights n i (((j + 1 : Nat) : Int) - weights[i]).toNat).map
            (translate n values[i]))
          (dpExact heap values weights n i (j + 1)) (translate n values[i] p)
          (List.mem_append_left _ (List.mem_map_of_mem _ hp))
        refine ⟨r, hr, weakDom_trans _ _ _ _ hrp ?_⟩
        rw [subsetValue_append _ _ _ _ _ hvi]
        exact weakDom_translate _ _ _ _ hpS

/-! ## The driver with zeroed base points -/

theorem nonDominated_dim_one (ps : List Point) (hlen : ∀ p ∈ ps, p.length = 1)
    (h : NonDominated 1 ps) : ps.length ≤ 1 := by
  match ps, hlen, h with
  | [], _, _ => simp
  | [_], _, _ => simp
  | p :: q :: rest, hlen, h =>
    exfalso
    unfold NonDominated at h
    rw [List.pairwise_cons] at h
    obtain ⟨hne, h1, h2⟩ := h.1 q (List.mem_cons_self _ _)
    have hp := hlen p (List.mem_cons_self _ _)
    have hq := hlen q (List.mem_cons_of_mem _ (List.mem_cons_self _ _))
    have he : equals p q 1 = false := by
      cases he : equals p q 1
      · rfl
      · exact absurd ((equals_iff_eq p q 1 hp hq).1 he) hne
    have he' : equals q p 1 = false := by
      cases he' : equals q p 1
      · rfl
      · exact absurd ((equals_iff_eq q p 1 hq hp).1 he').symm hne
    have h3 : ¬ (∀ k < 1, q.getD k 0 ≤ p.getD k 0) := by
      intro hcon
      have := (paretoDominate_iff p q 1).2 ⟨he, hcon⟩
      rw [h1] at this
      exact Bool.noConfusion this
    have h4 : ¬ (∀ k < 1, p.getD k 0 ≤ q.getD k 0) := by
      intro hcon
      have := (paretoDominate_iff q p 1).2 ⟨he', hcon⟩
      rw [h2] at this
      exact Bool.noConfusion this
    apply h3
    intro k hk
    have hk0 : k = 0 := by omega
    subst hk0
    by_contra hcon
    apply h4
    intro k hk
    have hk0 : k = 0 := by omega
    subst hk0
    omega

/-- Completeness of `modp` when the base-case blocks are zeroed and integer arithmetic is
exact: every feasible set of items has its value vector equal to, or dominated by, a point
of the returned archive. -/
theorem modp_complete_of_zeroed (heap : Heap) (values : List (List Int)) (weights : List Int)
    (capacity m n : Nat) (hw : weights.length = m) (hv : values.length = m)
    (hpos : ∀ w ∈ weights, 1 ≤ w) (hm : 1 ≤ m ∨ capacity = 0)
    (hz : heap.BaseZeroed capacity n) (hx : SumsExact heap values weights capacity m n) :
    ∃ R ps, modp heap values weights capacity m n = some R ∧ R.points = some ps ∧
      ∀ S, Feasible weights capacity m S →
        ∃ p ∈ ps, p = subsetValue values n S ∨
          paretoDominate p (subsetValue values n S) n = true := by
  obtain ⟨R, h1, h2, -⟩ := modp_refines heap values weights capacity m n hw hv hpos hm
  rw [dpTable_eq_exact heap values weights capacity m n hw hv hpos hx m capacity (le_refl _)
    (le_refl _)] at h2
  refine ⟨R, _, h1, h2.1, ?_⟩
  intro S hS
  obtain ⟨p, hp, hpS⟩ := dpExact_complete heap values weights capacity m n hw hv hpos hz m
    capacity (le_refl _) (le_refl _) S hS
  refine ⟨p, hp, ?_⟩
  rcases (weakDom_iff _ _ _).1 hpS with h | h
  · left
    exact (equals_iff_eq _ _ n (dpExact_length _ _ _ _ _ _ p hp)
      (subsetValue_length _ _ _)).1 h
  · exact Or.inr h

/-- Soundness of `modp` when the base-case blocks are zeroed and integer arithmetic is exact:
every point of the returned archive is the value vector of a feasible set of items. -/
theorem modp_sound_of_zeroed (heap : Heap) (values : List (List Int)) (weights : List Int)
    (capacity m n : Nat) (hw : weights.length = m) (hv : values.length = m)
    (hpos : ∀ w ∈ weights, 1 ≤ w) (hm : 1 ≤ m ∨ capacity = 0)
    (hz : heap.BaseZeroed capacity n) (hx : SumsExact heap values weights capacity m n) :
    ∃ R ps, modp heap values weights capacity m n = some R ∧ R.points = some ps ∧
      ∀ p ∈ ps, ∃ S, Feasible weights capacity m S ∧ p = subsetValue values n S := by
  obtain ⟨R, h1, h2, -⟩ := modp_refines heap values weights capacity m n hw hv hpos hm
  rw [dpTable_eq_exact heap values weights capacity m n hw hv hpos hx m capacity (le_refl _)
    (le_refl _)] at h2
  exact ⟨R, _, h1, h2.1, dpExact_sound heap values weights capacity m n hw hv hpos hz m
    capacity (le_refl _) (le_refl _)⟩

/-- Single objective, base-case blocks zeroed, integer arithmetic exact: `modp` returns one
point, the best total value of a feasible set of items. -/
theorem modp_scalar_of_zeroed (heap : Heap) (values : List (List Int)) (weights : List Int)
    (capacity m : Nat) (hw : weights.length = m) (hv : values.length = m)
    (hpos : ∀ w ∈ weights, 1 ≤ w) (hm : 1 ≤ m ∨ capacity = 0)
    (hz : heap.BaseZeroed capacity 1) (hx : SumsExact heap values weights capacity m 1) :
    ∃ R v S, modp heap values weights capacity m 1 = some R ∧ R.size = 1 ∧
      R.points = some [[v]] ∧ Feasible weights capacity m S ∧ subsetValue values 1 S = [v] ∧
      ∀ S', Feasible weights capacity m S' → (subsetValue values 1 S').getD 0 0 ≤ v := by
  obtain ⟨R, h1, h2, -⟩ := modp_refines heap values weights capacity m 1 hw hv hpos hm
  rw [dpTable_eq_exact heap values weights capacity m 1 hw hv hpos hx m capacity (le_refl _)
    (le_refl _)] at h2
  have hlen := dpExact_length heap values weights 1 m capacity
  have hnd := nonDominated_dim_one _ hlen (dpExact_nonDominated heap values weights 1 m capacity)
  have hcomp := dpExact_complete heap values weights capacity m 1 hw hv hpos hz m
    capacity (le_refl _) (le_refl _)
  have hsound := dpExact_sound heap values weights capacity m 1 hw hv hpos hz m
    capacity (le_refl _) (le_refl _)
  obtain ⟨p, hp, -⟩ := hcomp [] ⟨List.nil_sublist _, by simp [subsetWeight]⟩
  have hsize := ((holds_iff R _).1 h2).2.2.1
  generalize hps : dpExact heap values weights 1 m capacity = ps at *
  match ps, hp, hnd with
  | [q], hp, _ =>
    have hq : q.length = 1 := hlen q (List.mem_singleton_self _)
    obtain ⟨v, rfl⟩ := List.length_eq_one.1 hq
    obtain ⟨S, hS, hvS⟩ := hsound [v] (List.mem_singleton_self _)
    refine ⟨R, v, S, h1, by simpa using hsize.symm, h2.1, hS, hvS.symm, ?_⟩
    intro S' hS'
    obtain ⟨r, hr, hrS⟩ := hcomp S' hS'
    rw [List.mem_singleton] at hr
    subst hr
    simpa using hrS 0 (by omega)
  | _ :: _ :: _, _, hnd => simp at hnd

/-- No item, capacity 0, base-case block zeroed: `modp` returns the archive holding the zero
vector alone. -/
theorem modp_zero_items_of_zeroed (heap : Heap) (n : Nat) (hz : heap.BaseZeroed 0 n) :
    ∃ R, modp heap [] [] 0 0 n = some R ∧ R.size = 1 ∧
      R.points = some [List.replicate n 0] := by
  obtain ⟨R, h1, h2, -⟩ := modp_refines heap [] [] 0 0 n rfl rfl (by simp) (Or.inr rfl)
  have hb : dpTable heap [] [] n 0 0 = [List.replicate n 0] := by
    simp only [dpTable]
    rw [basePoint_zeroed heap [] 0 n 0 0 hz (le_refl _)]
    simp [subsetValue]
  rw [hb] at h2
  refine ⟨R, h1, ?_, h2.1⟩
  simpa using ((holds_iff R _).1 h2).2.2.1.symm

theorem heap_zero_baseZeroed (capacity n : Nat) : Heap.zero.BaseZeroed capacity n :=
  ⟨fun _ _ _ _ => rfl, fun _ _ => rfl⟩

theorem modp_complete_of_zeroed_witness :
    ∃ R ps, modp Heap.zero [[5, 0], [0, 5]] [1, 1] 1 2 2 = some R ∧ R.points = some ps ∧
      ∀ S, Feasible [1, 1] 1 2 S →
        ∃ p ∈ ps, p = subsetValue [[5, 0], [0, 5]] 2 S ∨
          paretoDominate p (subsetValue [[5, 0], [0, 5]] 2 S) 2 = true :=
  modp_complete_of_zeroed Heap.zero [[5, 0], [0, 5]] [1, 1] 1 2 2 rfl rfl (by decide)
    (Or.inl (by decide)) (heap_zero_baseZeroed 1 2) (by decide)

theorem modp_sound_of_zeroed_witness :
    ∃ R ps, modp Heap.zero [[2, 3]] [5] 5 1 2 = some R ∧ R.points = some ps ∧
      ∀ p ∈ ps, ∃ S, Feasible [5] 5 1 S ∧ p = subsetValue [[2, 3]] 2 S :=
  modp_sound_of_zeroed Heap.zero [[2, 3]] [5] 5 1 2 rfl rfl (by decide)
    (Or.inl (by decide)) (heap_zero_baseZeroed 5 2) (by decide)

theorem modp_scalar_of_zeroed_witness :
    ∃ R v S, modp Heap.zero [[2], [3], [4]] [2, 3, 4] 6 3 1 = some R ∧ R.size = 1 ∧
      R.points = some [[v]] ∧ Feasible [2, 3, 4] 6 3 S ∧
      subsetValue [[2], [3], [4]] 1 S = [v] ∧
      ∀ S', Feasible [2, 3, 4] 6 3 S' → (subsetValue [[2], [3], [4]] 1 S').getD 0 0 ≤ v :=
  modp_scalar_of_zeroed Heap.zero [[2], [3], [4]] [2, 3, 4] 6 3 rfl rfl (by decide)
    (Or.inl (by decide)) (heap_zero_baseZeroed 6 1) (by decide)

theorem modp_zero_items_of_zeroed_witness :
    ∃ R, modp Heap.zero [] [] 0 0 3 = some R ∧ R.size = 1 ∧
      R.points = some [List.replicate 3 0] :=
  modp_zero_items_of_zeroed Heap.zero 3 (heap_zero_baseZeroed 0 3)

theorem paretoDominate_trans_aux (dim : Nat) (x y z : Point)
    (h1 : paretoDominate x y dim = true) (h2 : paretoDominate y z dim = true) :
    paretoDominate x z dim = true := by
  rw [paretoDominate_iff] at h1 h2 ⊢
  refine ⟨?_, fun k hk => le_trans (h2.2 k hk) (h1.2 k hk)⟩
  cases he : equals x z dim
  · rfl
  · exfalso
    rw [equals_iff] at he
    have : equals x y dim = true := by
      rw [equals_iff]
      intro k hk
      have a := h1.2 k hk
      have b := h2.2 k hk
      have c := he k hk
      omega
    rw [this] at h1
    exact Bool.noConfusion h1.1

theorem mergePoints_mem_swap (dim : Nat) (as bs : List Point)
    (hbl : ∀ b ∈ bs, b.length = dim) (hal : ∀ a ∈ as, a.length = dim)
    (ha : NonDominated dim as) (x : Point)
    (hx : x ∈ mergePoints dim as bs) : x ∈ mergePoints dim bs as := by
  rw [mem_mergePoints] at hx ⊢
  rcases hx with ⟨hxa, hnb⟩ | ⟨hxb, hna⟩
  · by_cases hxb : x ∈ bs
    · exact Or.inl ⟨hxb, fun a haa => nonDominated_not_dominated dim as ha x a hxa haa⟩
    · refine Or.inr ⟨hxa, fun b hb => ⟨?_, hnb b hb⟩⟩
      cases he : equals b x dim
      · rfl
      · have := (equals_iff_eq b x dim (hbl b hb) (hal x hxa)).1 he
        rw [this] at hb
        exact absurd hb hxb
  · exact Or.inl ⟨hxb, fun a haa => (hna a haa).2⟩

theorem nonDominated_nodup (dim : Nat) (ps : List Point) (h : NonDominated dim ps) :
    ps.Nodup :=
  List.Pairwise.imp (fun h => h.1) h

theorem writePoint_fields (c c' : NDContainer) (i : Nat) (p : Point)
    (h : c.writePoint i p = some c') :
    c'.size = c.size ∧ c'.dim = c.dim ∧ c'.maxSize = c.maxSize := by
  unfold NDContainer.writePoint at h
  cases hb : c.ndPoints with
  | none => rw [hb] at h; exact Option.noConfusion h
  | some blk =>
    rw [hb] at h
    by_cases hi : i < blk.length
    · simp only [hi, if_true, Option.some.injEq] at h
      subst h
      exact ⟨rfl, rfl, rfl⟩
    · simp only [hi, if_false] at h
      exact Option.noConfusion h

theorem insertNDPoint_size (c c' : NDContainer) (p : Point)
    (h : insertNDPoint c p = some c') : c'.size = c.size + 1 ∧ c'.dim = c.dim := by
  simp only [insertNDPoint, Option.bind_eq_bind, Option.bind_eq_some, Option.pure_def,
    Option.some.injEq] at h
  obtain ⟨d, hd, rfl⟩ := h
  obtain ⟨h1, h2, -⟩ := writePoint_fields _ _ _ _ hd
  simp only [h1, h2]
  split <;> exact ⟨rfl, rfl⟩

theorem insertMany_holds (qs : List Point) (c : NDContainer) (ps : List Point)
    (h : c.Holds ps) (hpos : 0 < c.maxSize) (hq : ∀ q ∈ qs, q.length = c.dim) :
    ∃ c', qs.foldlM insertNDPoint c = some c' ∧ c'.Holds (ps ++ qs) ∧ c'.dim = c.dim ∧
      c'.size = c.size + qs.length := by
  induction qs generalizing c ps with
  | nil => exact ⟨c, rfl, by simpa using h, rfl, rfl⟩
  | cons q qs ih =>
    obtain ⟨c1, h1, h2, h3, h4⟩ := insertNDPoint_holds c ps q h hpos
      (hq q (List.mem_cons_self _ _))
    obtain ⟨c2, k1, k2, k3, k4⟩ := ih c1 (ps ++ [q]) h2 h4
      (fun r hr => (hq r (List.mem_cons_of_mem _ hr)).trans h3.symm)
    refine ⟨c2, ?_, by simpa using k2, k3.trans h3, ?_⟩
    · rw [List.foldlM_cons, h1]
      exact k1
    · rw [k4, (insertNDPoint_size c c1 q h1).1, List.length_cons]
      omega

theorem basePoint_heap_zero (n i j : Nat) : basePoint Heap.zero n i j = List.replicate n 0 := by
  unfold basePoint
  split <;> simp [createPoint_eq, Heap.zero]

theorem zeroArchive_holds (n : Nat) : (zeroArchive n).Holds [List.replicate n 0] := by
  simp [zeroArchive, NDContainer.ofPoints, NDContainer.Holds, NDContainer.points,
    NDContainer.readAll, NDContainer.readPoint, List.range_succ]

theorem dpTable_heap_congr (heap : Heap) (values : List (List Int)) (weights : List Int)
    (capacity m n : Nat) (hw : weights.length = m)
    (hpos : ∀ w ∈ weights, 1 ≤ w) (hz : heap.BaseZeroed capacity n)
    (i j : Nat) (hi : i ≤ m) (hj : j ≤ capacity) :
    dpTable heap values weights n i j = dpTable Heap.zero values weights n i j := by
  have hb : ∀ i j, j ≤ capacity → basePoint heap n i j = basePoint Heap.zero n i j := by
    intro i j hj
    rw [basePoint_zeroed heap values capacity n i j hz hj,
      basePoint_zeroed Heap.zero values capacity n i j (heap_zero_baseZeroed _ _) hj]
  induction i generalizing j with
  | zero => simp only [dpTable, hb 0 j hj]
  | succ i ih =>
    cases j with
    | zero => simp only [dpTable, hb (i + 1) 0 hj]
    | succ j =>
      have hiw : i < weights.length := by omega
      have hwi : weights[i]? = some weights[i] := List.getElem?_eq_getElem hiw
      have hw1 : 1 ≤ weights[i] := hpos _ (List.getElem_mem hiw)
      simp only [dpTable, hwi]
      cases values[i]? with
      | none => rfl
      | some v =>
        simp only
        rw [ih (j + 1) (by omega) hj,
          ih (((j + 1 : Nat) : Int) - weights[i]).toNat (by omega) (by omega)]

theorem specTable_holds (values : List (List Int)) (weights : List Int)
    (capacity m n : Nat) (hw : weights.length = m) (hv : values.length = m)
    (hpos : ∀ w ∈ weights, 1 ≤ w) (i j : Nat) (hi : i ≤ m) (hj : j ≤ capacity) :
    ∃ F, specTable values weights n i j = some F ∧
      F.Holds (dpTable Heap.zero values weights n i j) ∧ F.dim = n := by
  induction i generalizing j with
  | zero =>
    refine ⟨zeroArchive n, rfl, ?_, rfl⟩
    simp only [dpTable, basePoint_heap_zero]
    exact zeroArchive_holds n
  | succ i ih =>
    cases j with
    | zero =>
      refine ⟨zeroArchive n, rfl, ?_, rfl⟩
      simp only [dpTable, basePoint_heap_zero]
      exact zeroArchive_holds n
    | succ j =>
      have hiw : i < weights.length := by omega
      have hiv : i < values.length := by omega
      have hwi : weights[i]? = some weights[i] := List.getElem?_eq_getElem hiw
      have hvi : values[i]? = some values[i] := List.getElem?_eq_getElem hiv
      have hw1 : 1 ≤ weights[i] := hpos _ (List.getElem_mem hiw)
      obtain ⟨pj, hpj, hpjH, hpjd⟩ := ih (j + 1) (by omega) hj
      simp only [specTable, dpTable, hwi, hvi]
      by_cases hlt : ((j + 1 : Nat) : Int) < weights[i]
      · simp only [hlt, if_true, hpj, Option.some_bind]
        obtain ⟨R, h1, h2, h3, -⟩ := cloneNDContainer_holds pj _ hpjH
        exact ⟨R, h1, h2, h3.trans hpjd⟩
      · simp only [hlt, if_false]
        obtain ⟨src, hsrc, hsrcH, hsrcd⟩ :=
          ih (((j + 1 : Nat) : Int) - weights[i]).toNat (by omega) (by omega)
        obtain ⟨temp, ht1, ht2, ht3, -⟩ := add_holds (fun _ _ => 0) src values[i] _ hsrcH
        obtain ⟨R, hm1, hm2, hm3, -⟩ := mergeNDContainer_holds temp pj _ _ ht2 hpjH
          (by rw [hpjd, ht3, hsrcd])
        rw [ht3, hsrcd] at hm2 hm3
        refine ⟨R, ?_, hm2, hm3⟩
        simp only [hsrc, ht1, hpj, hm1, Option.some_bind]

/-- Rolling table against full table when the base-case blocks are zeroed: `modp` returns the
points of cell `DP[m][capacity]` of the specification's table, in the same order. -/
theorem modp_eq_specTable_of_zeroed (heap : Heap) (values : List (List Int))
    (weights : List Int) (capacity m n : Nat) (hw : weights.length = m)
    (hv : values.length = m) (hpos : ∀ w ∈ weights, 1 ≤ w) (hm : 1 ≤ m ∨ capacity = 0)
    (hz : heap.BaseZeroed capacity n) :
    ∃ R F ps, modp heap values weights capacity m n = some R ∧
      specTable values weights n m capacity = some F ∧
      R.points = some ps ∧ F.points = some ps := by
  obtain ⟨R, h1, h2, -⟩ := modp_refines heap values weights capacity m n hw hv hpos hm
  obtain ⟨F, k1, k2, -⟩ := specTable_holds values weights capacity m n hw hv hpos m capacity
    (le_refl _) (le_refl _)
  rw [dpTable_heap_congr heap values weights capacity m n hw hpos hz m capacity (le_refl _)
    (le_refl _)] at h2
  exact ⟨R, F, _, h1, k1, h2.1, k2.1⟩

theorem modp_eq_specTable_of_zeroed_witness :
    ∃ R F ps, modp Heap.zero [[5, 0], [0, 5], [1, 1], [3, 3]] [1, 1, 2, 1] 3 4 2 = some R ∧
      specTable [[5, 0], [0, 5], [1, 1], [3, 3]] [1, 1, 2, 1] 2 4 3 = some F ∧
      R.points = some ps ∧ F.points = some ps :=
  modp_eq_specTable_of_zeroed Heap.zero [[5, 0], [0, 5], [1, 1], [3, 3]] [1, 1, 2, 1] 3 4 2
    rfl rfl (by decide) (Or.inl (by decide)) (heap_zero_baseZeroed 3 2)

theorem foldlM_preserves {σ β : Type} (f : σ → Nat → Option σ) (g : σ → β) (l : List Nat)
    (hf : ∀ st a st', a ∈ l → f st a = some st' → g st' = g st) (init st' : σ)
    (h : l.foldlM f init = some st') : g st' = g init := by
  induction l generalizing init with
  | nil =>
    simp only [List.foldlM_nil, Option.pure_def, Option.some.injEq] at h
    rw [h]
  | cons a l ih =>
    rw [List.foldlM_cons] at h
    cases hfa : f init a with
    | none => rw [hfa] at h; exact Option.noConfusion h
    | some st1 =>
      rw [hfa] at h
      have h1 := hf init a st1 (List.mem_cons_self _ _) hfa
      have h2 := ih (fun st b st'' hb => hf st b st'' (List.mem_cons_of_mem _ hb)) st1 h
      rw [h2, h1]

theorem table_write_read_zero (t t' : Table) (j : Nat) (c : NDContainer) (hj : 1 ≤ j)
    (h : t.write j c = some t') : t'.read 0 = t.read 0 := by
  unfold Table.write at h
  by_cases hlt : j < t.length
  · simp only [hlt, if_true, Option.some.injEq] at h
    rw [← h, table_read_set t j 0 c hlt, if_neg (by omega)]
  · simp only [hlt, if_false] at h
    exact Option.noConfusion h

theorem table_clean_read_zero (t t' : Table) (j : Nat) (hj : 1 ≤ j)
    (h : t.clean j = some t') : t'.read 0 = t.read 0 := by
  simp only [Table.clean, Option.bind_eq_bind, Option.bind_eq_some] at h
  obtain ⟨c, -, c', -, h3⟩ := h
  exact table_write_read_zero t t' j c' hj h3

theorem modpRow_read_zero (heap : Heap) (values : List (List Int)) (weights : List Int)
    (capacity : Nat) (prev curr curr' : Table) (i : Nat)
    (h : modpRow heap values weights capacity prev curr i = some curr') :
    curr'.read 0 = curr.read 0 := by
  refine foldlM_preserves _ (fun t : Table => t.read 0) _ ?_ curr curr' h
  intro st a st' ha hst
  simp only [Option.bind_eq_bind, Option.bind_eq_some] at hst
  obtain ⟨c, -, hc⟩ := hst
  exact table_write_read_zero st st' a c (List.mem_range'_1.1 ha).1 hc

theorem modpStep_read_zero (heap : Heap) (values : List (List Int)) (weights : List Int)
    (capacity : Nat) (st st' : Table × Table) (i : Nat)
    (h : modpStep heap values weights capacity st i = some st') :
    st'.1.read 0 = st.2.read 0 ∧ st'.2.read 0 = st.1.read 0 := by
  simp only [modpStep, Option.bind_eq_bind, Option.bind_eq_some, Option.pure_def,
    Option.some.injEq] at h
  obtain ⟨curr', h1, t', h2, rfl⟩ := h
  refine ⟨modpRow_read_zero _ _ _ _ _ _ _ _ h1, ?_⟩
  refine foldlM_preserves _ (fun t : Table => t.read 0) _ ?_ st.1 t' h2
  intro u a u' ha hu
  exact table_clean_read_zero u u' a (List.mem_range'_1.1 ha).1 hu

theorem modpLoop_succ (heap : Heap) (values : List (List Int)) (weights : List Int)
    (capacity i : Nat) (st : Table × Table) :
    modpLoop heap values weights capacity (i + 1) st =
      (modpLoop heap values weights capacity i st).bind
        (fun s => modpStep heap values weights capacity s (i + 1)) := by
  unfold modpLoop
  rw [List.range'_concat, List.foldlM_append]
  simp only [Option.bind_eq_bind, Nat.one_mul, Nat.add_comm 1 i]
  congr 1
  funext s
  simp [List.foldlM_cons]

theorem modpLoop_read_zero (heap : Heap) (values : List (List Int)) (weights : List Int)
    (capacity i : Nat) (st0 st : Table × Table)
    (h : modpLoop heap values weights capacity i st0 = some st) :
    st.1.read 0 = (if i % 2 = 0 then st0.1.read 0 else st0.2.read 0) ∧
    st.2.read 0 = (if i % 2 = 0 then st0.2.read 0 else st0.1.read 0) := by
  induction i generalizing st with
  | zero =>
    simp only [modpLoop, List.range'_zero, List.foldlM_nil, Option.pure_def,
      Option.some.injEq] at h
    subst h
    simp
  | succ i ih =>
    rw [modpLoop_succ, Option.bind_eq_some] at h
    obtain ⟨s, hs, hstep⟩ := h
    obtain ⟨a1, a2⟩ := ih s hs
    obtain ⟨b1, b2⟩ := modpStep_read_zero _ _ _ _ _ _ _ hstep
    rw [b1, b2, a1, a2]
    rcases Nat.mod_two_eq_zero_or_one i with hi | hi
    · have : (i + 1) % 2 = 1 := by omega
      simp [hi, this]
    · have : (i + 1) % 2 = 0 := by omega
      simp [hi, this]

theorem modpLoop_split (heap : Heap) (values : List (List Int)) (weights : List Int)
    (capacity m i : Nat) (hi : i ≤ m) (st0 : Table × Table) :
    modpLoop heap values weights capacity m st0 =
      (modpLoop heap values weights capacity i st0).bind
        (fun s => (List.range' (i + 1) (m - i)).foldlM
          (modpStep heap values weights capacity) s) := by
  unfold modpLoop
  have : List.range' 1 m = List.range' 1 i ++ List.range' (1 + i) (m - i) := by
    rw [List.range'_append_1]
    congr 1
    omega
  rw [this, List.foldlM_append, Nat.add_comm 1 i]
  rfl

theorem modpLoop_inv_le (heap : Heap) (values : List (List Int)) (weights : List Int)
    (capacity m n : Nat) (hw : weights.length = m) (hv : values.length = m)
    (hpos : ∀ w ∈ weights, 1 ≤ w) (i : Nat) (hi : i ≤ m) (st : Table × Table)
    (h : DriverInv heap values weights capacity n 0 st) :
    ∃ st', modpLoop heap values weights capacity i st = some st' ∧
      DriverInv heap values weights capacity n i st' :=
  foldlM_range'_inv (modpStep heap values weights capacity)
    (DriverInv heap values weights capacity n) 1 i st h
    (fun t st' ht hinv => by
      rw [Nat.add_comm 1 t]
      exact modpStep_inv heap values weights capacity m n hw hv hpos t (by omega) st' hinv)

theorem initPrev_read_zero (heap : Heap) (capacity n : Nat) (prev0 : Table)
    (h : initPrev heap capacity n = some prev0) :
    prev0.read 0 = baseCell n (heap.prevBase 0) := by
  unfold initPrev at h
  rw [List.range_eq_range', List.range'_succ, List.foldlM_cons] at h
  obtain ⟨b0, hb0, -⟩ := baseCell_holds n (heap.prevBase 0)
  simp only [hb0, Option.bind_eq_bind, Option.some_bind] at h
  rw [table_write_eq _ 0 b0 (by simp)] at h
  simp only [Option.some_bind] at h
  have := foldlM_preserves _ (fun t : Table => t.read 0) _ (by
    intro st a st' ha hst
    simp only [Option.bind_eq_bind, Option.bind_eq_some] at hst
    obtain ⟨c, -, hc⟩ := hst
    exact table_write_read_zero st st' a c (by
      have := (List.mem_range'_1.1 ha).1
      omega) hc) _ prev0 h
  simp only at this
  rw [this, table_read_set _ _ _ _ (by simp), if_pos rfl, hb0]

theorem initCurr_read_zero (heap : Heap) (capacity n : Nat) (curr0 : Table)
    (h : initCurr heap capacity n = some curr0) :
    curr0.read 0 = baseCell n heap.currBase := by
  obtain ⟨b1, hb1, -⟩ := baseCell_holds n heap.currBase
  simp only [initCurr, hb1, Option.bind_eq_bind, Option.some_bind] at h
  rw [table_write_eq _ 0 b1 (by simp), Option.some.injEq] at h
  rw [← h, table_read_set _ _ _ _ (by simp), if_pos rfl, hb1]

/-- Index safety of the loop of the driver: the index `j - weights[i-1]` is within
`0..capacity`, the two tables are set up and the loop over the items runs to its end
without a failed access; the whole of `modp` returns an archive when there is an item or
the capacity is 0. -/
theorem modp_index_safe (heap : Heap) (values : List (List Int)) (weights : List Int)
    (capacity m n : Nat) (hw : weights.length = m) (hv : values.length = m)
    (hpos : ∀ w ∈ weights, 1 ≤ w) :
    (∀ i j : Nat, 1 ≤ i → i ≤ m → 1 ≤ j → j ≤ capacity →
      ∃ w, weights[i - 1]? = some w ∧
        (¬ (j : Int) < w → 0 ≤ (j : Int) - w ∧ ((j : Int) - w).toNat ≤ capacity)) ∧
    (∃ prev0 curr0 st, initPrev heap capacity n = some prev0 ∧
      initCurr heap capacity n = some curr0 ∧
      modpLoop heap values weights capacity m (prev0, curr0) = some st) ∧
    (1 ≤ m ∨ capacity = 0 → ∃ R, modp heap values weights capacity m n = some R) := by
  refine ⟨?_, ?_, ?_⟩
  · intro i j hi1 hi2 hj1 hj2
    have hiw : i - 1 < weights.length := by omega
    refine ⟨weights[i - 1], List.getElem?_eq_getElem hiw, ?_⟩
    have := hpos _ (List.getElem_mem hiw)
    intro h
    omega
  · obtain ⟨prev0, hp1, hp2⟩ := initPrev_holds heap values weights capacity n
    obtain ⟨curr0, hq1, hq2, hq3, -⟩ := initCurr_holds heap values weights capacity n
    obtain ⟨st, hst, -⟩ := modpLoop_inv heap values weights capacity m n hw hv hpos
      (prev0, curr0) ⟨hp2, hq2, hq3, fun h => by omega⟩
    exact ⟨prev0, curr0, st, hp1, hq1, hst⟩
  · intro hm
    obtain ⟨R, h, -⟩ := modp_refines heap values weights capacity m n hw hv hpos hm
    exact ⟨R, h⟩

theorem modp_index_safe_witness :
    (∀ i j : Nat, 1 ≤ i → i ≤ 2 → 1 ≤ j → j ≤ 3 →
      ∃ w, ([1, 2] : List Int)[i - 1]? = some w ∧
        (¬ (j : Int) < w → 0 ≤ (j : Int) - w ∧ ((j : Int) - w).toNat ≤ 3)) ∧
    (∃ prev0 curr0 st, initPrev Heap.zero 3 2 = some prev0 ∧
      initCurr Heap.zero 3 2 = some curr0 ∧
      modpLoop Heap.zero [[5, 0], [0, 5]] [1, 2] 3 2 (prev0, curr0) = some st) ∧
    (1 ≤ 2 ∨ 3 = 0 → ∃ R, modp Heap.zero [[5, 0], [0, 5]] [1, 2] 3 2 2 = some R) :=
  modp_index_safe Heap.zero [[5, 0], [0, 5]] [1, 2] 3 2 2 rfl rfl (by decide)

/-! ## Properties of the union -/

/-- C6: the point sequence of `mergeNDContainer A B` is the points of `A` that no point
of `B` dominates, in the order of `A`, followed by the points of `B` that no point of
`A` equals or dominates, in the order of `B`. -/
theorem mergeNDContainer_two_pass (A B : NDContainer) (as bs : List Point)
    (hA : A.Holds as) (hB : B.Holds bs) (hdim : B.dim = A.dim) :
    ∃ R, mergeNDContainer A B = some R ∧
      R.points = some
        (as.filter (fun a => decide (∀ b ∈ bs, paretoDominate b a A.dim = false)) ++
         bs.filter (fun b => decide (∀ a ∈ as, a ≠ b ∧ paretoDominate a b A.dim = false))) := by
  obtain ⟨R, h1, h2, _, _⟩ := mergeNDContainer_holds A B as bs hA hB hdim
  refine ⟨R, h1, ?_⟩
  rw [← mergePoints_eq A.dim as bs hA.2.2.2 (fun b hb => (hB.2.2.2 b hb).trans hdim)]
  exact h2.1

theorem mergeNDContainer_two_pass_witness :
    (∃ R, mergeNDContainer (NDContainer.ofPoints 2 [[3, 1], [1, 3]])
        (NDContainer.ofPoints 2 [[2, 2], [0, 0]]) = some R ∧
      R.points = some
        (([[3, 1], [1, 3]] : List Point).filter
            (fun a => decide (∀ b ∈ ([[2, 2], [0, 0]] : List Point), paretoDominate b a 2 = false)) ++
         ([[2, 2], [0, 0]] : List Point).filter
            (fun b => decide (∀ a ∈ ([[3, 1], [1, 3]] : List Point),
              a ≠ b ∧ paretoDominate a b 2 = false)))) ∧
    (mergeNDContainer (NDContainer.ofPoints 2 [[3, 1], [1, 3]])
        (NDContainer.ofPoints 2 [[2, 2], [0, 0]])).bind NDContainer.points =
      some [[3, 1], [1, 3], [2, 2]] :=
  ⟨mergeNDContainer_two_pass (NDContainer.ofPoints 2 [[3, 1], [1, 3]])
      (NDContainer.ofPoints 2 [[2, 2], [0, 0]]) [[3, 1], [1, 3]] [[2, 2], [0, 0]]
      (by decide) (by decide) rfl, by decide⟩

/-- C7: when `A` and `B` hold no two equal points and no point dominating another,
so does `mergeNDContainer A B`. -/
theorem mergeNDContainer_nonDominated (A B : NDContainer) (as bs : List Point)
    (hA : A.Holds as) (hB : B.Holds bs) (hdim : B.dim = A.dim)
    (ha : NonDominated A.dim as) (hb : NonDominated A.dim bs) :
    ∃ R ps, mergeNDContainer A B = some R ∧ R.points = some ps ∧
      ps.Pairwise (fun p q => p ≠ q ∧ paretoDominate p q A.dim = false ∧
        paretoDominate q p A.dim = false) := by
  obtain ⟨R, h1, h2, _, _⟩ := mergeNDContainer_holds A B as bs hA hB hdim
  exact ⟨R, _, h1, h2.1, mergePoints_nonDominated A.dim as bs ha hb⟩

theorem mergeNDContainer_nonDominated_witness :
    ∃ R ps, mergeNDContainer (NDContainer.ofPoints 2 [[3, 1], [1, 3]])
        (NDContainer.ofPoints 2 [[2, 2], [3, 1]]) = some R ∧ R.points = some ps ∧
      ps.Pairwise (fun p q => p ≠ q ∧ paretoDominate p q 2 = false ∧
        paretoDominate q p 2 = false) :=
  mergeNDContainer_nonDominated (NDContainer.ofPoints 2 [[3, 1], [1, 3]])
    (NDContainer.ofPoints 2 [[2, 2], [3, 1]]) [[3, 1], [1, 3]] [[2, 2], [3, 1]]
    (by decide) (by decide) rfl (by unfold NonDominated; decide) (by unfold NonDominated; decide)

/-- C8 fails as stated: with `A = [(1), (2)]` and `B` empty, the union is `[(1), (2)]`,
whose point `(1)` is dominated by the point `(2)` of `A`. -/
theorem mergeNDContainer_keeps_dominated :
    ¬ (∀ (A B : NDContainer) (as bs : List Point), A.Holds as → B.Holds bs → B.dim = A.dim →
        ∀ R ps, mergeNDContainer A B = some R → R.points = some ps →
          ∀ p ∈ ps, ∀ q ∈ as ++ bs, paretoDominate q p A.dim = false) := by
  intro h
  have := h (NDContainer.ofPoints 1 [[1], [2]]) (NDContainer.ofPoints 1 []) [[1], [2]] []
    (by decide) (by decide) rfl
    { dim := 1, size := 2, maxSize := 64,
      ndPoints := some (some [1] :: some [2] :: List.replicate 62 none) }
    [[1], [2]] (by decide) (by decide) [1] (by decide) [2] (by decide)
  revert this
  decide

/-- C8, amended: every point of `mergeNDContainer A B` is a point of `A` that no point of
`B` dominates, or a point of `B` that no point of `A` dominates; and when `A` and `B`
each hold no point dominating another, no point of the result is dominated by any
point of `A` or of `B`. -/
theorem mergeNDContainer_cross_filtered (A B : NDContainer) (as bs : List Point)
    (hA : A.Holds as) (hB : B.Holds bs) (hdim : B.dim = A.dim) :
    ∃ R ps, mergeNDContainer A B = some R ∧ R.points = some ps ∧
      (∀ p ∈ ps, (p ∈ as ∧ ∀ b ∈ bs, paretoDominate b p A.dim = false) ∨
                 (p ∈ bs ∧ ∀ a ∈ as, paretoDominate a p A.dim = false)) ∧
      (NonDominated A.dim as → NonDominated A.dim bs →
        ∀ p ∈ ps, ∀ q ∈ as ++ bs, paretoDominate q p A.dim = false) := by
  obtain ⟨R, h1, h2, _, _⟩ := mergeNDContainer_holds A B as bs hA hB hdim
  refine ⟨R, _, h1, h2.1, ?_, ?_⟩
  · intro p hp
    rcases (mem_mergePoints _ _ _ _).1 hp with h | h
    · exact Or.inl h
    · exact Or.inr ⟨h.1, fun a ha => (h.2 a ha).2⟩
  · intro ha hb p hp q hq
    rcases (mem_mergePoints _ _ _ _).1 hp with h | h <;> rcases List.mem_append.1 hq with hq | hq
    · exact nonDominated_not_dominated _ _ ha p q h.1 hq
    · exact h.2 q hq
    · exact (h.2 q hq).2
    · exact nonDominated_not_dominated _ _ hb p q h.1 hq

theorem mergeNDContainer_cross_filtered_witness :
    ∃ R ps, mergeNDContainer (NDContainer.ofPoints 2 [[3, 1], [1, 3], [1, 1]])
        (NDContainer.ofPoints 2 [[2, 2], [0, 0]]) = some R ∧ R.points = some ps ∧
      (∀ p ∈ ps, (p ∈ ([[3, 1], [1, 3], [1, 1]] : List Point) ∧
                    ∀ b ∈ ([[2, 2], [0, 0]] : List Point), paretoDominate b p 2 = false) ∨
                 (p ∈ ([[2, 2], [0, 0]] : List Point) ∧
                    ∀ a ∈ ([[3, 1], [1, 3], [1, 1]] : List Point), paretoDominate a p 2 = false)) ∧
      (NonDominated 2 [[3, 1], [1, 3], [1, 1]] → NonDominated 2 [[2, 2], [0, 0]] →
        ∀ p ∈ ps, ∀ q ∈ ([[3, 1], [1, 3], [1, 1]] : List Point) ++ [[2, 2], [0, 0]],
          paretoDominate q p 2 = false) :=
  mergeNDContainer_cross_filtered (NDContainer.ofPoints 2 [[3, 1], [1, 3], [1, 1]])
    (NDContainer.ofPoints 2 [[2, 2], [0, 0]]) [[3, 1], [1, 3], [1, 1]] [[2, 2], [0, 0]]
    (by decide) (by decide) rfl

/-- C9: for a point `p` of `A`, the second pass of `mergeNDContainer A B` appends no point
equal to `p`; `p` occurs in the result as often as in `A` when no point of `B` dominates
it, and not at all otherwise. -/
theorem mergeNDContainer_ties (A B : NDContainer) (as bs : List Point)
    (hA : A.Holds as) (hB : B.Holds bs) (hdim : B.dim = A.dim) (p : Point) (hp : p ∈ as) :
    ∃ R1 R ps1 ps2,
      mergePass1 A B (createNDContainer DEFAULT_VECTOR_SIZE A.dim) = some R1 ∧
      R1.points = some ps1 ∧ mergePass2 A B R1 = some R ∧
      mergeNDContainer A B = some R ∧ R.points = some (ps1 ++ ps2) ∧
      p ∉ ps2 ∧ (∀ q ∈ ps2, equals p q A.dim = false) ∧
      (ps1 ++ ps2).count p =
        if ∀ b ∈ bs, paretoDominate b p A.dim = false then as.count p else 0 := by
  obtain ⟨nd1, h1, h2, h3, h4⟩ := mergePass1_holds A B as bs hA hB
    (createNDContainer DEFAULT_VECTOR_SIZE A.dim) [] (createNDContainer_holds _ _)
    (by simp [createNDContainer, DEFAULT_VECTOR_SIZE]) rfl
  obtain ⟨nd2, k1, k2, k3, k4⟩ := mergePass2_holds A B as bs hA hB hdim nd1 _ h2 h4 h3
  have hno : ∀ q ∈ bs.filter
      (fun b => !as.any (fun a => equals a b A.dim || paretoDominate a b A.dim)),
      equals p q A.dim = false := by
    intro q hq
    have := (List.mem_filter.1 hq).2
    simp only [Bool.not_eq_true', List.any_eq_false, Bool.or_eq_true, not_or,
      Bool.not_eq_true] at this
    exact (this p hp).1
  have hnot : p ∉ bs.filter
      (fun b => !as.any (fun a => equals a b A.dim || paretoDominate a b A.dim)) := by
    intro hm
    have := hno p hm
    rw [equals_self] at this
    exact Bool.noConfusion this
  refine ⟨nd1, nd2, _, _, h1, h2.1, k1, ?_, k2.1, hnot, hno, ?_⟩
  · simp only [mergeNDContainer, Option.bind_eq_bind, h1, Option.some_bind]
    exact k1
  · rw [List.nil_append, List.count_append, List.count_eq_zero_of_not_mem hnot, Nat.add_zero,
      count_filter_eq]
    congr 1
    simp [List.any_eq_true]

theorem mergeNDContainer_ties_witness :
    ∃ R1 R ps1 ps2,
      mergePass1 (NDContainer.ofPoints 2 [[3, 1], [1, 3], [3, 1]])
        (NDContainer.ofPoints 2 [[3, 1], [2, 2]])
        (createNDContainer DEFAULT_VECTOR_SIZE 2) = some R1 ∧
      R1.points = some ps1 ∧
      mergePass2 (NDContainer.ofPoints 2 [[3, 1], [1, 3], [3, 1]])
        (NDContainer.ofPoints 2 [[3, 1], [2, 2]]) R1 = some R ∧
      mergeNDContainer (NDContainer.ofPoints 2 [[3, 1], [1, 3], [3, 1]])
        (NDContainer.ofPoints 2 [[3, 1], [2, 2]]) = some R ∧
      R.points = some (ps1 ++ ps2) ∧
      [3, 1] ∉ ps2 ∧ (∀ q ∈ ps2, equals [3, 1] q 2 = false) ∧
      (ps1 ++ ps2).count [3, 1] =
        if ∀ b ∈ ([[3, 1], [2, 2]] : List Point), paretoDominate b [3, 1] 2 = false
        then ([[3, 1], [1, 3], [3, 1]] : List Point).count [3, 1] else 0 :=
  mergeNDContainer_ties (NDContainer.ofPoints 2 [[3, 1], [1, 3], [3, 1]])
    (NDContainer.ofPoints 2 [[3, 1], [2, 2]]) [[3, 1], [1, 3], [3, 1]] [[3, 1], [2, 2]]
    (by decide) (by decide) rfl [3, 1] (by decide)

/-! ## Properties of the driver -/

/-- C3 fails as stated when a sum leaves the range of `int`: on zeroed memory, for the items
of values `(2147483647,0)`, `(0,5)`, `(1,6)`, weights 1, 1, 1 and capacity 2, `modp` returns
`[(1,11), (-2147483648,6), (2147483647,5)]`, whose first point dominates the second. -/
theorem modp_dominated_on_overflow :
    ∃ R p q, modp Heap.zero [[2147483647, 0], [0, 5], [1, 6]] [1, 1, 1] 2 3 2 = some R ∧
      R.points = some [[1, 11], [-2147483648, 6], [2147483647, 5]] ∧
      0 < R.size ∧ 1 < R.size ∧ R.readPoint 0 = some p ∧ R.readPoint 1 = some q ∧
      paretoDominate p q 2 = true := by
  obtain ⟨R, hR⟩ : ∃ R, modp Heap.zero [[2147483647, 0], [0, 5], [1, 6]] [1, 1, 1] 2 3 2 =
      some R := ⟨_, rfl⟩
  have h1 : (modp Heap.zero [[2147483647, 0], [0, 5], [1, 6]] [1, 1, 1] 2 3 2).bind
      NDContainer.points = some [[1, 11], [-2147483648, 6], [2147483647, 5]] := by decide
  have h2 : (modp Heap.zero [[2147483647, 0], [0, 5], [1, 6]] [1, 1, 1] 2 3 2).map
      NDContainer.size = some 3 := by decide
  have h3 : (modp Heap.zero [[2147483647, 0], [0, 5], [1, 6]] [1, 1, 1] 2 3 2).bind
      (fun R => R.readPoint 0) = some [1, 11] := by decide
  have h4 : (modp Heap.zero [[2147483647, 0], [0, 5], [1, 6]] [1, 1, 1] 2 3 2).bind
      (fun R => R.readPoint 1) = some [-2147483648, 6] := by decide
  rw [hR] at h1 h2 h3 h4
  simp only [Option.some_bind, Option.map_some', Option.some.injEq] at h1 h2 h3 h4
  exact ⟨R, [1, 11], [-2147483648, 6], hR, h1, by omega, by omega, h3, h4, by decide⟩

/-- C3, amended: when there is an item or the capacity is 0, and integer arithmetic is exact
on the run, `modp` returns an archive, and two points stored at different positions of it
are different and neither dominates the other. -/
theorem modp_nonDominated (heap : Heap) (values : List (List Int)) (weights : List Int)
    (capacity m n : Nat) (hw : weights.length = m) (hv : values.length = m)
    (hpos : ∀ w ∈ weights, 1 ≤ w) (hm : 1 ≤ m ∨ capacity = 0)
    (hx : SumsExact heap values weights capacity m n) :
    ∃ R, modp heap values weights capacity m n = some R ∧
      (∀ a < R.size, ∃ p, R.readPoint a = some p) ∧
      ∀ a b p q, a < R.size → b < R.size → a ≠ b →
        R.readPoint a = some p → R.readPoint b = some q →
        p ≠ q ∧ paretoDominate p q n = false ∧ paretoDominate q p n = false := by
  obtain ⟨R, h1, h2, -⟩ := modp_refines heap values weights capacity m n hw hv hpos hm
  refine ⟨R, h1, ?_, ?_⟩
  · intro a ha
    have h3 := (holds_iff R _).1 h2
    have ha2 : a < (dpTable heap values weights n m capacity).length := by omega
    refine ⟨(dpTable heap values weights n m capacity)[a], ?_⟩
    rw [h3.2.2.2.1 a ha, List.getElem?_eq_getElem ha2]
  · intro a b p q ha hb hab hp hq
    exact holds_pairwise_index R _ h2
      (fun p q => p ≠ q ∧ paretoDominate p q n = false ∧ paretoDominate q p n = false)
      (fun p q h => ⟨fun e => h.1 e.symm, h.2.2, h.2.1⟩)
      (dpTable_nonDominated heap values weights capacity m n hw hv hpos hx) a b p q ha hb hab
      hp hq

theorem modp_nonDominated_witness :
    ∃ R, modp Heap.zero [[5, 0], [0, 5]] [1, 1] 1 2 2 = some R ∧
      (∀ a < R.size, ∃ p, R.readPoint a = some p) ∧
      ∀ a b p q, a < R.size → b < R.size → a ≠ b →
        R.readPoint a = some p → R.readPoint b = some q →
        p ≠ q ∧ paretoDominate p q 2 = false ∧ paretoDominate q p 2 = false :=
  modp_nonDominated Heap.zero [[5, 0], [0, 5]] [1, 1] 1 2 2 rfl rfl (by decide)
    (Or.inl (by decide)) (by decide)

/-- C4: with no item and capacity 0, `modp` returns the archive of size 1 whose point is the
block `createPoint` returned for `prev[0]`, as `malloc` left it: `(7, 7)` on a heap
holding sevens, not the zero vector.  With no item and a positive capacity nothing is
returned: the final cleaning reaches slots of `curr` that were never written. -/
theorem modp_zero_items_raw :
    (∀ (heap : Heap) (n : Nat), ∃ R, modp heap [] [] 0 0 n = some R ∧ R.size = 1 ∧
      R.points = some [(List.range n).map (heap.prevBase 0)]) ∧
    (modp ⟨fun _ _ => 7, fun _ => 0, fun _ _ _ _ => 0⟩ [] [] 0 0 2).bind NDContainer.points =
      some [[7, 7]] ∧
    (∀ (heap : Heap) (n capacity : Nat), modp heap [] [] (capacity + 1) 0 n = none) := by
  refine ⟨?_, by decide, ?_⟩
  · intro heap n
    obtain ⟨R, h1, h2, -⟩ := modp_refines heap [] [] 0 0 n rfl rfl (by simp) (Or.inr rfl)
    refine ⟨R, h1, ?_, ?_⟩
    · have := ((holds_iff R _).1 h2).2.2.1
      simpa [dpTable] using this.symm
    · simpa [dpTable, basePoint, createPoint_eq] using h2.1
  · intro heap n capacity
    exact modp_no_item heap [] [] (capacity + 1) n (by omega)

/-- C1 on a heap holding `-1`: for the items of values `(5,0)`, `(0,5)`, weights 1, 1 and
capacity 1, `modp` returns `[(-1,4), (4,-1)]`; the item 0 alone fits and is worth `(5,0)`,
which no point of the archive equals or dominates. -/
theorem modp_incomplete_raw :
    (modp ⟨fun _ _ => -1, fun _ => -1, fun _ _ _ _ => 0⟩ [[5, 0], [0, 5]] [1, 1] 1 2 2).bind
        NDContainer.points = some [[-1, 4], [4, -1]] ∧
    Feasible [1, 1] 1 2 [0] ∧ subsetValue [[5, 0], [0, 5]] 2 [0] = [5, 0] ∧
    ∀ p ∈ ([[-1, 4], [4, -1]] : List Point), p ≠ [5, 0] ∧ paretoDominate p [5, 0] 2 = false := by
  decide

/-- C2 on a heap holding 7 in the blocks of `prev` and 9 in that of `curr[0]`: for the single
item of value `(2,3)`, weight 5 and capacity 5, `modp` returns `[(9,10)]`, which is the
value of no set of items. -/
theorem modp_unsound_raw :
    (modp ⟨fun _ _ => 7, fun _ => 9, fun _ _ _ _ => 0⟩ [[2, 3]] [5] 5 1 2).bind
        NDContainer.points = some [[9, 10]] ∧
    ∀ S, S.Sublist (List.range 1) → subsetValue [[2, 3]] 2 S ≠ [9, 10] := by
  refine ⟨by decide, ?_⟩
  intro S hS
  rw [← List.mem_sublists] at hS
  revert S
  decide

/-- C5 on a heap holding 1: for `n = 1`, values 2, 3, 4, weights 2, 3, 4 and capacity 6,
`modp` returns `[(7)]`, while the best total value of a set of items of weight at most 6
is 6. -/
theorem modp_scalar_raw :
    (modp ⟨fun _ _ => 1, fun _ => 1, fun _ _ _ _ => 0⟩ [[2], [3], [4]] [2, 3, 4] 6 3 1).bind
        NDContainer.points = some [[7]] ∧
    Feasible [2, 3, 4] 6 3 [0, 2] ∧ subsetValue [[2], [3], [4]] 1 [0, 2] = [6] ∧
    ∀ S, Feasible [2, 3, 4] 6 3 S → (subsetValue [[2], [3], [4]] 1 S).getD 0 0 ≤ 6 := by
  refine ⟨by decide, by decide, by decide, ?_⟩
  intro S hS
  obtain ⟨h1, h2⟩ := hS
  rw [← List.mem_sublists] at h1
  revert h2
  revert S
  decide

/-! ## Order, translation and covering -/

/-- C20: `paretoDominate` is irreflexive and transitive in every dimension, hence two points
never dominate each other. -/
theorem paretoDominate_strict_order (dim : Nat) (x y z : Point) :
    paretoDominate x x dim = false ∧
    (paretoDominate x y dim = true → paretoDominate y z dim = true →
      paretoDominate x z dim = true) ∧
    ¬ (paretoDominate x y dim = true ∧ paretoDominate y x dim = true) := by
  refine ⟨paretoDominate_self x dim, paretoDominate_trans_aux dim x y z, ?_⟩
  rintro ⟨h1, h2⟩
  have := paretoDominate_trans_aux dim x y x h1 h2
  rw [paretoDominate_self] at this
  exact Bool.noConfusion this

theorem paretoDominate_strict_order_witness :
    paretoDominate [3, 3] [1, 1] 2 = true :=
  (paretoDominate_strict_order 2 [3, 3] [2, 3] [1, 1]).2.1 (by decide) (by decide)

/-- C18: with exact sums, shifting two points by the same vector changes neither
`paretoDominate` nor `equals`; hence, when the sums `add` forms are within the range of
`int`, `add` turns an archive with no two equal points and no point dominating another into
an archive with the same property. -/
theorem add_preserves_invariant (raw : Nat → Nat → Int) (A : NDContainer) (ps : List Point)
    (d : List Int) (hA : A.Holds ps) (hnd : NonDominated A.dim ps)
    (hx : ∀ p ∈ ps, ∀ k < A.dim, fitsInt (p.getD k 0 + d.getD k 0)) :
    (∀ x y : Point, paretoDominate (translate A.dim d x) (translate A.dim d y) A.dim =
        paretoDominate x y A.dim ∧
      equals (translate A.dim d x) (translate A.dim d y) A.dim = equals x y A.dim) ∧
    ∃ R qs, add raw A d = some R ∧ R.points = some qs ∧
      qs = ps.map (translate A.dim d) ∧
      qs.Pairwise (fun p q => p ≠ q ∧ paretoDominate p q A.dim = false ∧
        paretoDominate q p A.dim = false) := by
  refine ⟨fun x y => ⟨paretoDominate_translate _ _ _ _, equals_translate _ _ _ _⟩, ?_⟩
  obtain ⟨R, h1, h2, -, -⟩ := add_holds raw A d ps hA
  have he : ps.map (shift A.dim d) = ps.map (translate A.dim d) :=
    List.map_congr_left (fun p hp => shift_eq_translate A.dim d p (hx p hp))
  rw [he] at h2
  exact ⟨R, _, h1, h2.1, rfl, nonDominated_translate A.dim d ps hA.2.2.2 hnd⟩

theorem add_preserves_invariant_witness :
    (∀ x y : Point, paretoDominate (translate 2 [10, -4] x) (translate 2 [10, -4] y) 2 =
        paretoDominate x y 2 ∧
      equals (translate 2 [10, -4] x) (translate 2 [10, -4] y) 2 = equals x y 2) ∧
    ∃ R qs, add (fun _ _ => 99) (NDContainer.ofPoints 2 [[3, 1], [1, 3]]) [10, -4] = some R ∧
      R.points = some qs ∧
      qs = ([[3, 1], [1, 3]] : List Point).map (translate 2 [10, -4]) ∧
      qs.Pairwise (fun p q => p ≠ q ∧ paretoDominate p q 2 = false ∧
        paretoDominate q p 2 = false) :=
  add_preserves_invariant (fun _ _ => 99) (NDContainer.ofPoints 2 [[3, 1], [1, 3]])
    [[3, 1], [1, 3]] [10, -4] (by decide) (by unfold NonDominated; decide) (by decide)

/-- C16: every point of `A` and every point of `B` is equal to, or dominated by, a point of
`mergeNDContainer A B`, and every point of the result is a point of `A` or of `B`; `A` and
`B` need not be non-dominated. -/
theorem mergeNDContainer_covers (A B : NDContainer) (as bs : List Point)
    (hA : A.Holds as) (hB : B.Holds bs) (hdim : B.dim = A.dim) :
    ∃ R ps, mergeNDContainer A B = some R ∧ R.points = some ps ∧
      (∀ x ∈ as ++ bs, ∃ r ∈ ps, r = x ∨ paretoDominate r x A.dim = true) ∧
      ∀ r ∈ ps, r ∈ as ∨ r ∈ bs := by
  obtain ⟨R, h1, h2, -, -⟩ := mergeNDContainer_holds A B as bs hA hB hdim
  refine ⟨R, _, h1, h2.1, ?_, fun r hr => mergePoints_subset _ _ _ _ hr⟩
  intro x hx
  obtain ⟨r, hr, hrx⟩ := mergePoints_covers A.dim as bs x hx
  refine ⟨r, hr, ?_⟩
  have hrl : r.length = A.dim := by
    rcases mergePoints_subset _ _ _ _ hr with h | h
    · exact hA.2.2.2 r h
    · exact (hB.2.2.2 r h).trans hdim
  have hxl : x.length = A.dim := by
    rcases List.mem_append.1 hx with h | h
    · exact hA.2.2.2 x h
    · exact (hB.2.2.2 x h).trans hdim
  rcases (weakDom_iff _ _ _).1 hrx with h | h
  · exact Or.inl ((equals_iff_eq r x A.dim hrl hxl).1 h)
  · exact Or.inr h

theorem mergeNDContainer_covers_witness :
    ∃ R ps, mergeNDContainer (NDContainer.ofPoints 2 [[1, 1], [3, 1], [2, 2]])
        (NDContainer.ofPoints 2 [[2, 2], [0, 0], [0, 5]]) = some R ∧ R.points = some ps ∧
      (∀ x ∈ ([[1, 1], [3, 1], [2, 2]] : List Point) ++ [[2, 2], [0, 0], [0, 5]],
        ∃ r ∈ ps, r = x ∨ paretoDominate r x 2 = true) ∧
      ∀ r ∈ ps, r ∈ ([[1, 1], [3, 1], [2, 2]] : List Point) ∨
        r ∈ ([[2, 2], [0, 0], [0, 5]] : List Point) :=
  mergeNDContainer_covers (NDContainer.ofPoints 2 [[1, 1], [3, 1], [2, 2]])
    (NDContainer.ofPoints 2 [[2, 2], [0, 0], [0, 5]]) [[1, 1], [3, 1], [2, 2]]
    [[2, 2], [0, 0], [0, 5]] (by decide) (by decide) rfl

/-- C14 fails as stated when a sum leaves the range of `int`: shifting `(2147483647,
-2147483648)` by `(1, -1)`, `add` returns `(-2147483648, 2147483647)`, whose first
coordinate is not `2147483647 + 1`. -/
theorem add_wraps_on_overflow :
    ∃ R p q a b, add (fun _ _ => 0) (NDContainer.ofPoints 2 [[2147483647, -2147483648]])
        [1, -1] = some R ∧
      (NDContainer.ofPoints 2 [[2147483647, -2147483648]]).readPoint 0 = some p ∧
      R.readPoint 0 = some q ∧ q = [-2147483648, 2147483647] ∧
      p[0]? = some a ∧ ([1, -1] : List Int)[0]? = some b ∧ q[0]? ≠ some (a + b) :=
  ⟨_, [2147483647, -2147483648], [-2147483648, 2147483647], 2147483647, 1, rfl, rfl,
    by decide, rfl, rfl, rfl, by decide⟩

/-- C14, amended: `add A delta` has the size and the dimension of `A`, and coordinate `k` of
its point `i` is the `int` sum of `A[i][k]` and `delta[k]` for every `i < size` and
`k < dim`, whatever the fresh blocks held: `A[i][k] + delta[k]` itself when that sum is
within the range of `int`, and the sum brought back to that range modulo `2^32`
otherwise. -/
theorem add_translates (raw : Nat → Nat → Int) (A : NDContainer) (ps : List Point)
    (delta : List Int) (hA : A.Holds ps) (hd : delta.length = A.dim) :
    ∃ R, add raw A delta = some R ∧ R.size = A.size ∧ R.dim = A.dim ∧
      ∀ i < A.size, ∃ p q, A.readPoint i = some p ∧ R.readPoint i = some q ∧
        q.length = A.dim ∧
        ∀ k < A.dim, ∃ a b, p[k]? = some a ∧ delta[k]? = some b ∧
          q[k]? = some (wrapInt (a + b)) ∧
          (INT_MIN ≤ a + b ∧ a + b ≤ INT_MAX → q[k]? = some (a + b)) := by
  obtain ⟨R, h1, h2, h3, -⟩ := add_holds raw A delta ps hA
  have hA' := (holds_iff A ps).1 hA
  have hR' := (holds_iff R _).1 h2
  have hsize : R.size = A.size := by
    rw [← hR'.2.2.1, ← hA'.2.2.1, List.length_map]
  refine ⟨R, h1, hsize, h3, ?_⟩
  intro i hi
  have hi2 : i < ps.length := by rw [hA'.2.2.1]; exact hi
  refine ⟨ps[i], shift A.dim delta ps[i], ?_, ?_, shift_length _ _ _, ?_⟩
  · rw [hA'.2.2.2.1 i hi, List.getElem?_eq_getElem hi2]
  · rw [hR'.2.2.2.1 i (by omega), List.getElem?_map, List.getElem?_eq_getElem hi2]
    rfl
  · intro k hk
    have hpl : ps[i].length = A.dim := hA.2.2.2 _ (List.getElem_mem hi2)
    have hk1 : k < ps[i].length := by omega
    have hk2 : k < delta.length := by omega
    have hk3 : k < (shift A.dim delta ps[i]).length := by
      rw [shift_length]; exact hk
    have hq := shift_getD A.dim delta ps[i] k hk
    rw [List.getD_eq_getElem _ _ hk3, List.getD_eq_getElem _ _ hk1,
      List.getD_eq_getElem _ _ hk2] at hq
    have hq2 : (shift A.dim delta ps[i])[k]? = some (wrapInt (ps[i][k] + delta[k])) := by
      rw [List.getElem?_eq_getElem hk3, hq]
    refine ⟨ps[i][k], delta[k], List.getElem?_eq_getElem hk1, List.getElem?_eq_getElem hk2,
      hq2, ?_⟩
    intro hfit
    rw [hq2, wrapInt_of_fits _ hfit]

theorem add_translates_witness :
    ∃ R, add (fun i k => 100 * i + k) (NDContainer.ofPoints 2 [[3, 1], [2147483647, 3]])
        [10, -4] = some R ∧ R.size = 2 ∧ R.dim = 2 ∧
      ∀ i < 2, ∃ p q, (NDContainer.ofPoints 2 [[3, 1], [2147483647, 3]]).readPoint i = some p ∧
        R.readPoint i = some q ∧ q.length = 2 ∧
        ∀ k < 2, ∃ a b, p[k]? = some a ∧ ([10, -4] : List Int)[k]? = some b ∧
          q[k]? = some (wrapInt (a + b)) ∧
          (INT_MIN ≤ a + b ∧ a + b ≤ INT_MAX → q[k]? = some (a + b)) :=
  add_translates (fun i k => 100 * i + k) (NDContainer.ofPoints 2 [[3, 1], [2147483647, 3]])
    [[3, 1], [2147483647, 3]] [10, -4] (by decide) rfl

/-- C17: for archives `A` and `B` that each hold no two equal points and no point dominating
another, `mergeNDContainer A B` and `mergeNDContainer B A` hold the same points, each
exactly once, possibly in a different order. -/
theorem mergeNDContainer_comm (A B : NDContainer) (as bs : List Point)
    (hA : A.Holds as) (hB : B.Holds bs) (hdim : B.dim = A.dim)
    (ha : NonDominated A.dim as) (hb : NonDominated A.dim bs) :
    ∃ R1 R2 ps1 ps2, mergeNDContainer A B = some R1 ∧ mergeNDContainer B A = some R2 ∧
      R1.points = some ps1 ∧ R2.points = some ps2 ∧
      ps1.Perm ps2 ∧ ps1.Nodup ∧ ps2.Nodup := by
  obtain ⟨R1, h1, h2, -, -⟩ := mergeNDContainer_holds A B as bs hA hB hdim
  obtain ⟨R2, k1, k2, -, -⟩ := mergeNDContainer_holds B A bs as hB hA hdim.symm
  rw [hdim] at k2
  have hal := hA.2.2.2
  have hbl : ∀ b ∈ bs, b.length = A.dim := fun b hb' => (hB.2.2.2 b hb').trans hdim
  have n1 := nonDominated_nodup _ _ (mergePoints_nonDominated A.dim as bs ha hb)
  have n2 := nonDominated_nodup _ _ (mergePoints_nonDominated A.dim bs as hb ha)
  refine ⟨R1, R2, _, _, h1, k1, h2.1, k2.1, ?_, n1, n2⟩
  rw [List.perm_ext_iff_of_nodup n1 n2]
  intro x
  exact ⟨mergePoints_mem_swap A.dim as bs hbl hal ha x,
    mergePoints_mem_swap A.dim bs as hal hbl hb x⟩

theorem mergeNDContainer_comm_witness :
    ∃ R1 R2 ps1 ps2,
      mergeNDContainer (NDContainer.ofPoints 2 [[3, 1], [1, 3]])
        (NDContainer.ofPoints 2 [[2, 2], [3, 1]]) = some R1 ∧
      mergeNDContainer (NDContainer.ofPoints 2 [[2, 2], [3, 1]])
        (NDContainer.ofPoints 2 [[3, 1], [1, 3]]) = some R2 ∧
      R1.points = some ps1 ∧ R2.points = some ps2 ∧
      ps1.Perm ps2 ∧ ps1.Nodup ∧ ps2.Nodup :=
  mergeNDContainer_comm (NDContainer.ofPoints 2 [[3, 1], [1, 3]])
    (NDContainer.ofPoints 2 [[2, 2], [3, 1]]) [[3, 1], [1, 3]] [[2, 2], [3, 1]]
    (by decide) (by decide) rfl (by unfold NonDominated; decide)
    (by unfold NonDominated; decide)

/-! ## Insertion -/

/-- C12 fails as stated on an archive of capacity 0: doubling leaves the capacity at 0 and
the cell `ndPoints[0]` written by `insertNDPoint` is outside the block. -/
theorem insertNDPoint_zero_capacity :
    ¬ (∀ (c : NDContainer) (ps qs : List Point), c.Holds ps →
        (∀ q ∈ qs, q.length = c.dim) →
        ∃ c', qs.foldlM insertNDPoint c = some c' ∧ c'.points = some (ps ++ qs)) := by
  intro h
  obtain ⟨c', h1, -⟩ := h (createNDContainer 0 2) [] [[1, 2]] (by decide) (by decide)
  have hnone : ([[1, 2]] : List Point).foldlM insertNDPoint (createNDContainer 0 2) = none := by
    decide
  rw [hnone] at h1
  exact Option.noConfusion h1

/-- C12, amended: on an archive whose capacity is at least 1, inserting a sequence of points
of the archive's dimension with `insertNDPoint` succeeds, however long the sequence; the
archive then holds the points it held, in their positions, followed by the inserted points
in insertion order, and its size has grown by the number of insertions.  No point is
filtered out. -/
theorem insertNDPoint_appends (c : NDContainer) (ps qs : List Point)
    (h : c.Holds ps) (hpos : 1 ≤ c.maxSize) (hq : ∀ q ∈ qs, q.length = c.dim) :
    ∃ c', qs.foldlM insertNDPoint c = some c' ∧ c'.points = some (ps ++ qs) ∧
      c'.size = c.size + qs.length ∧ c'.dim = c.dim ∧
      (∀ i < c.size, c'.readPoint i = c.readPoint i) ∧
      ∀ i, ∀ hi : i < qs.length, c'.readPoint (c.size + i) = some qs[i] := by
  obtain ⟨c', h1, h2, h3, h4⟩ := insertMany_holds qs c ps h hpos hq
  have hc := (holds_iff c ps).1 h
  have hc' := (holds_iff c' _).1 h2
  refine ⟨c', h1, h2.1, h4, h3, ?_, ?_⟩
  · intro i hi
    rw [hc'.2.2.2.1 i (by omega), hc.2.2.2.1 i hi, List.getElem?_append_left (by omega)]
  · intro i hi
    rw [hc'.2.2.2.1 _ (by omega), List.getElem?_append_right (by omega)]
    rw [hc.2.2.1, Nat.add_sub_cancel_left, List.getElem?_eq_getElem hi]

theorem insertNDPoint_appends_witness :
    ∃ c', ([[0, 0], [5, 5], [1, 3]] : List Point).foldlM insertNDPoint
        (NDContainer.ofPoints 2 [[3, 1], [1, 3]]) = some c' ∧
      c'.points = some ([[3, 1], [1, 3]] ++ [[0, 0], [5, 5], [1, 3]]) ∧
      c'.size = (NDContainer.ofPoints 2 [[3, 1], [1, 3]]).size + 3 ∧ c'.dim = 2 ∧
      (∀ i < (NDContainer.ofPoints 2 [[3, 1], [1, 3]]).size,
        c'.readPoint i = (NDContainer.ofPoints 2 [[3, 1], [1, 3]]).readPoint i) ∧
      ∀ i, ∀ hi : i < ([[0, 0], [5, 5], [1, 3]] : List Point).length,
        c'.readPoint ((NDContainer.ofPoints 2 [[3, 1], [1, 3]]).size + i) =
          some ([[0, 0], [5, 5], [1, 3]] : List Point)[i] :=
  insertNDPoint_appends (NDContainer.ofPoints 2 [[3, 1], [1, 3]]) [[3, 1], [1, 3]]
    [[0, 0], [5, 5], [1, 3]] (by decide) (by decide) (by decide)

/-- C13 fails as stated on an archive with `size = maxSize = 0`: `insertNDPoint` cannot store
the point, so no archive with `size ≤ maxSize` results. -/
theorem insertNDPoint_zero_capacity_invariant :
    ¬ (∀ (c : NDContainer) (ps : List Point) (p : Point), c.Holds ps →
        ∃ c', insertNDPoint c p = some c' ∧ c'.size ≤ c'.maxSize) := by
  intro h
  obtain ⟨c', h1, -⟩ := h (createNDContainer 0 1) [] [7] (by decide)
  have hnone : insertNDPoint (createNDContainer 0 1) [7] = none := by decide
  rw [hnone] at h1
  exact Option.noConfusion h1

/-- C13, amended: on an archive with `size ≤ maxSize` and `maxSize ≥ 1`, `insertNDPoint`
succeeds and leaves `size ≤ maxSize`; `maxSize` is unchanged when `size < maxSize` held
before the call and is twice its old value otherwise, so it never decreases. -/
theorem insertNDPoint_capacity (c : NDContainer) (blk : List (Option Point)) (p : Point)
    (hblk : c.ndPoints = some blk) (hlen : blk.length = c.maxSize)
    (hle : c.size ≤ c.maxSize) (hpos : 1 ≤ c.maxSize) :
    ∃ c', insertNDPoint c p = some c' ∧ c'.size = c.size + 1 ∧ c'.size ≤ c'.maxSize ∧
      (c.size < c.maxSize → c'.maxSize = c.maxSize) ∧
      (¬ c.size < c.maxSize → c'.maxSize = 2 * c.maxSize) ∧
      c.maxSize ≤ c'.maxSize := by
  by_cases hfull : c.size ≥ c.maxSize
  · have hsz : c.size = c.maxSize := by omega
    let blk2 := (List.range' c.size (c.maxSize * 2 - c.size)).foldl
        (fun b i => b.set i none)
        (blk.take (c.maxSize * 2) ++ List.replicate (c.maxSize * 2 - blk.length) none)
    have hlen2 : blk2.length = c.maxSize * 2 := by
      simp only [blk2, foldl_set_none_length, List.length_append, List.length_take,
        List.length_replicate]
      omega
    refine ⟨{ c with ndPoints := some (blk2.set c.size (some (clonePoint p c.dim))),
                     maxSize := c.maxSize * 2, size := c.size + 1 }, ?_, rfl,
      by simp only; omega, fun h => by omega, fun _ => by simp only; omega,
      by simp only; omega⟩
    simp only [insertNDPoint, hfull, if_true, hblk, NDContainer.writePoint]
    have : c.size < blk2.length := by omega
    simp only [blk2] at this
    simp [this, blk2]
  · have hlt : c.size < c.maxSize := by omega
    refine ⟨{ c with ndPoints := some (blk.set c.size (some (clonePoint p c.dim))),
                     size := c.size + 1 }, ?_, rfl, by simp only; omega, fun _ => rfl,
      fun h => absurd hlt h, le_refl _⟩
    simp only [insertNDPoint, hfull, if_false, hblk, NDContainer.writePoint]
    simp [hlen, hlt]

theorem insertNDPoint_capacity_witness :
    ∃ c', insertNDPoint (NDContainer.ofPoints 2 [[3, 1], [1, 3]]) [9, 9] = some c' ∧
      c'.size = (NDContainer.ofPoints 2 [[3, 1], [1, 3]]).size + 1 ∧ c'.size ≤ c'.maxSize ∧
      ((NDContainer.ofPoints 2 [[3, 1], [1, 3]]).size <
          (NDContainer.ofPoints 2 [[3, 1], [1, 3]]).maxSize →
        c'.maxSize = (NDContainer.ofPoints 2 [[3, 1], [1, 3]]).maxSize) ∧
      (¬ (NDContainer.ofPoints 2 [[3, 1], [1, 3]]).size <
          (NDContainer.ofPoints 2 [[3, 1], [1, 3]]).maxSize →
        c'.maxSize = 2 * (NDContainer.ofPoints 2 [[3, 1], [1, 3]]).maxSize) ∧
      (NDContainer.ofPoints 2 [[3, 1], [1, 3]]).maxSize ≤ c'.maxSize :=
  insertNDPoint_capacity (NDContainer.ofPoints 2 [[3, 1], [1, 3]])
    [some [3, 1], some [1, 3]] [9, 9] rfl rfl (by decide) (by decide)

/-! ## Rolling table against full table -/

/-- C11 on a heap holding 3: for the items of values `(5,0)`, `(0,5)`, weights 1, 1 and
capacity 1, `modp` returns `[(3,8), (8,3)]` while cell `DP[2][1]` of the full table of the
specification holds `[(0,5), (5,0)]`. -/
theorem modp_differs_from_specTable_raw :
    (modp ⟨fun _ _ => 3, fun _ => 3, fun _ _ _ _ => 0⟩ [[5, 0], [0, 5]] [1, 1] 1 2 2).bind
        NDContainer.points = some [[3, 8], [8, 3]] ∧
    (specTable [[5, 0], [0, 5]] [1, 1] 2 2 1).bind NDContainer.points =
      some [[0, 5], [5, 0]] := by
  decide

/-! ## Slot 0 across the generations -/

/-- C15: once `i ≤ m` items are processed (at the start of the processing of item `i + 1`,
and at the end of the loop for `i = m`), slot 0 of `prev` is the container set up before the
loop, for `prev[0]` when `i` is even and for `curr[0]` when `i` is odd: an archive of size 1
holding the point `createPoint` returned, neither rewritten nor cleaned; slot 0 of `curr` is
the other one.  Hence the read of `prev[j - weights[i]]` with `j = weights[i]` finds that
archive. -/
theorem modp_slot_zero (heap : Heap) (values : List (List Int)) (weights : List Int)
    (capacity m n : Nat) (hw : weights.length = m) (hv : values.length = m)
    (hpos : ∀ w ∈ weights, 1 ≤ w) (i : Nat) (hi : i ≤ m) :
    ∃ prev0 curr0 b0 b1 st,
      initPrev heap capacity n = some prev0 ∧ initCurr heap capacity n = some curr0 ∧
      baseCell n (heap.prevBase 0) = some b0 ∧ baseCell n heap.currBase = some b1 ∧
      b0.size = 1 ∧ b0.points = some [createPoint n (heap.prevBase 0)] ∧
      b1.size = 1 ∧ b1.points = some [createPoint n heap.currBase] ∧
      modpLoop heap values weights capacity i (prev0, curr0) = some st ∧
      modpLoop heap values weights capacity m (prev0, curr0) =
        (List.range' (i + 1) (m - i)).foldlM (modpStep heap values weights capacity) st ∧
      st.1.read 0 = some (if i % 2 = 0 then b0 else b1) ∧
      st.2.read 0 = some (if i % 2 = 0 then b1 else b0) ∧
      ∀ (j : Nat) (w : Int), weights[i]? = some w → (j : Int) = w →
        st.1.read ((j : Int) - w).toNat = some (if i % 2 = 0 then b0 else b1) := by
  obtain ⟨prev0, hp1, hp2⟩ := initPrev_holds heap values weights capacity n
  obtain ⟨curr0, hq1, hq2, hq3, -⟩ := initCurr_holds heap values weights capacity n
  obtain ⟨b0, hb0, hb0H, -, -⟩ := baseCell_holds n (heap.prevBase 0)
  obtain ⟨b1, hb1, hb1H, -, -⟩ := baseCell_holds n heap.currBase
  obtain ⟨st, hst, -⟩ := modpLoop_inv_le heap values weights capacity m n hw hv hpos i hi
    (prev0, curr0) ⟨hp2, hq2, hq3, fun h => by omega⟩
  obtain ⟨r1, r2⟩ := modpLoop_read_zero heap values weights capacity i (prev0, curr0) st hst
  have z0 := initPrev_read_zero heap capacity n prev0 hp1
  have z1 := initCurr_read_zero heap capacity n curr0 hq1
  rw [hb0] at z0
  rw [hb1] at z1
  simp only [z0, z1] at r1 r2
  have e1 : st.1.read 0 = some (if i % 2 = 0 then b0 else b1) := by
    rw [r1]; split <;> rfl
  have e2 : st.2.read 0 = some (if i % 2 = 0 then b1 else b0) := by
    rw [r2]; split <;> rfl
  refine ⟨prev0, curr0, b0, b1, st, hp1, hq1, hb0, hb1, ?_, hb0H.1, ?_, hb1H.1, hst, ?_,
    e1, e2, ?_⟩
  · simpa using ((holds_iff b0 _).1 hb0H).2.2.1.symm
  · simpa using ((holds_iff b1 _).1 hb1H).2.2.1.symm
  · rw [modpLoop_split heap values weights capacity m i hi, hst]
    rfl
  · intro j w _ hjw
    have : ((j : Int) - w).toNat = 0 := by omega
    rw [this]
    exact e1

theorem modp_slot_zero_witness :
    ∃ prev0 curr0 b0 b1 st,
      initPrev ⟨fun _ _ => 7, fun _ => 9, fun _ _ _ _ => 0⟩ 3 2 = some prev0 ∧
      initCurr ⟨fun _ _ => 7, fun _ => 9, fun _ _ _ _ => 0⟩ 3 2 = some curr0 ∧
      baseCell 2 ((⟨fun _ _ => 7, fun _ => 9, fun _ _ _ _ => 0⟩ : Heap).prevBase 0) = some b0 ∧
      baseCell 2 (⟨fun _ _ => 7, fun _ => 9, fun _ _ _ _ => 0⟩ : Heap).currBase = some b1 ∧
      b0.size = 1 ∧
      b0.points = some
        [createPoint 2 ((⟨fun _ _ => 7, fun _ => 9, fun _ _ _ _ => 0⟩ : Heap).prevBase 0)] ∧
      b1.size = 1 ∧
      b1.points = some
        [createPoint 2 (⟨fun _ _ => 7, fun _ => 9, fun _ _ _ _ => 0⟩ : Heap).currBase] ∧
      modpLoop ⟨fun _ _ => 7, fun _ => 9, fun _ _ _ _ => 0⟩ [[5, 0], [0, 5]] [1, 2] 3 1
        (prev0, curr0) = some st ∧
      modpLoop ⟨fun _ _ => 7, fun _ => 9, fun _ _ _ _ => 0⟩ [[5, 0], [0, 5]] [1, 2] 3 2
        (prev0, curr0) =
        (List.range' (1 + 1) (2 - 1)).foldlM
          (modpStep ⟨fun _ _ => 7, fun _ => 9, fun _ _ _ _ => 0⟩ [[5, 0], [0, 5]] [1, 2] 3) st ∧
      st.1.read 0 = some (if 1 % 2 = 0 then b0 else b1) ∧
      st.2.read 0 = some (if 1 % 2 = 0 then b1 else b0) ∧
      ∀ (j : Nat) (w : Int), ([1, 2] : List Int)[1]? = some w → (j : Int) = w →
        st.1.read ((j : Int) - w).toNat = some (if 1 % 2 = 0 then b0 else b1) :=
  modp_slot_zero ⟨fun _ _ => 7, fun _ => 9, fun _ _ _ _ => 0⟩ [[5, 0], [0, 5]] [1, 2] 3 2 2
    rfl rfl (by decide) 1 (by decide)

/-! ## Safety of the driver -/

/-- C19 with no item and capacity 1: both tables are set up and the loop over the items is
empty, but slot 1 of `curr`, within the table, was never written; the call
`cleanNDContainer(&curr[1])` of the final cleaning fails on it and `modp` returns
nothing. -/
theorem modp_teardown_unwritten :
    ∃ prev0 curr0, initPrev Heap.zero 1 2 = some prev0 ∧ initCurr Heap.zero 1 2 = some curr0 ∧
      modpLoop Heap.zero [] [] 1 0 (prev0, curr0) = some (prev0, curr0) ∧
      curr0.length = 2 ∧ curr0[1]? = some none ∧ Table.clean curr0 1 = none ∧
      modp Heap.zero [] [] 1 0 2 = none := by
  obtain ⟨prev0, hp⟩ : ∃ p, initPrev Heap.zero 1 2 = some p := ⟨_, rfl⟩
  obtain ⟨curr0, hq⟩ : ∃ c, initCurr Heap.zero 1 2 = some c := ⟨_, rfl⟩
  refine ⟨prev0, curr0, hp, hq, rfl, ?_, ?_, ?_, by decide⟩
  · have : (initCurr Heap.zero 1 2).map List.length = some 2 := by decide
    rw [hq] at this
    simpa using this
  · have : (initCurr Heap.zero 1 2).map (fun t => t[1]?) = some (some none) := by decide
    rw [hq] at this
    simpa using this
  · have : (initCurr Heap.zero 1 2).bind (fun t => Table.clean t 1) = none := by decide
    rw [hq] at this
    simpa using this

end MODP
